/-
Verification of the neural-db vault subsystem against its specification.

The repository is a browser application (TypeScript/React).  This file is a
shallow embedding of the parts of the source that the verified claims are
about:

* `src/src/lib/encryption.ts` — mnemonic normalisation and validation,
  vault-id derivation, envelope encryption (`encryptData`/`decryptData`,
  which frame an AES-GCM ciphertext as `base64(iv || ciphertext)`), and the
  WebAuthn biometric bridge (`registerBiometric`, `authenticateBiometric`,
  `authenticateDiscoverable`).
* `src/src/App.tsx` — the vault registry (profile upsert on unlock,
  `handleDeleteVault`, `handleRenameProfile`), note import
  (`handleImportNotes`) and the semantic ranker (`filteredNotes`).

Modelling conventions:
* `localStorage` is modelled as an association list `Store` preserving
  insertion order (`localStorage.key(i)` enumerates in that order).
* Byte strings are `List Nat` with entries `< 256`; a JavaScript string that
  holds binary data (the output of `btoa`, the input of `atob`) is the list
  of its code units.
* `btoa`/`atob` are modelled bit-precisely: `atob` implements the WHATWG
  "forgiving base64" decode (ASCII whitespace removed, up to two trailing
  `=` stripped when the length is a multiple of 4, leftover bits that do not
  fill a byte discarded).  This precision matters: the tamper-detection
  claim fails exactly because of forgiving decoding.
* Platform capabilities that the code merely calls (WebCrypto AES-GCM, the
  WebAuthn authenticator, SHA-256, the bip39 library) are external
  collaborators (spec §6); where a claim depends on them they are either
  taken as explicit function parameters or, where the spec fixes their
  contract, modelled from the spec (doc comments on those definitions begin
  with "Modelled from the spec:").
-/
import Mathlib

set_option maxRecDepth 8192

namespace NeuralDB

/-! ## localStorage model -/

/-- `localStorage`, as an insertion-ordered association list from keys to
string values. -/
abbrev Store := List (String × String)

/-- `localStorage.getItem`. -/
def getItem (s : Store) (k : String) : Option String :=
  (s.find? (fun kv => kv.1 == k)).map (·.2)

/-- `localStorage.setItem`: overwrite in place if the key exists, else append. -/
def setItem (s : Store) (k v : String) : Store :=
  if s.any (fun kv => kv.1 == k) then
    s.map (fun kv => if kv.1 == k then (k, v) else kv)
  else
    s ++ [(k, v)]

/-- `localStorage.removeItem`. -/
def removeItem (s : Store) (k : String) : Store :=
  s.filter (fun kv => kv.1 != k)

/-! ## Bits and bytes

`btoa`/`atob` are specified on bit streams; we model bytes as `Nat < 256`
and bit streams as `List Bool`, most significant bit first. -/

/-- The eight bits of a byte, most significant first. -/
def byteBits (b : Nat) : List Bool :=
  [b / 128 % 2 == 1, b / 64 % 2 == 1, b / 32 % 2 == 1, b / 16 % 2 == 1,
   b / 8 % 2 == 1, b / 4 % 2 == 1, b / 2 % 2 == 1, b % 2 == 1]

/-- The six bits of a base64 sextet value, most significant first. -/
def sextetBits (v : Nat) : List Bool :=
  [v / 32 % 2 == 1, v / 16 % 2 == 1, v / 8 % 2 == 1,
   v / 4 % 2 == 1, v / 2 % 2 == 1, v % 2 == 1]

/-- The value of a bit string, most significant bit first. -/
def bitsVal (l : List Bool) : Nat :=
  l.foldl (fun a b => 2 * a + (if b then 1 else 0)) 0

/-- The bit stream of a byte string. -/
def bytesToBits (l : List Nat) : List Bool :=
  l.flatMap byteBits

/-- Cut a bit stream into sextet values, zero-padding the last group
(the encoding direction of base64). -/
def toSextets : List Bool → List Nat
  | [] => []
  | b0 :: b1 :: b2 :: b3 :: b4 :: b5 :: rest =>
    bitsVal [b0, b1, b2, b3, b4, b5] :: toSextets rest
  | l => [bitsVal (l ++ List.replicate (6 - l.length) false)]

/-- Regroup a bit stream into bytes, discarding trailing bits that do not
fill a byte (the decoding direction of forgiving base64). -/
def bitsToBytes : List Bool → List Nat
  | b0 :: b1 :: b2 :: b3 :: b4 :: b5 :: b6 :: b7 :: rest =>
    bitsVal [b0, b1, b2, b3, b4, b5, b6, b7] :: bitsToBytes rest
  | _ => []

/-- One-step unfolding of `toSextets` in take/drop form. -/
theorem toSextets_eq (l : List Bool) :
    toSextets l = if l = [] then []
      else bitsVal (l.take 6 ++ List.replicate (6 - (l.take 6).length) false)
           :: toSextets (l.drop 6) := by
  match l with
  | [] => rfl
  | [b0] => simp [toSextets]
  | [b0, b1] => simp [toSextets]
  | [b0, b1, b2] => simp [toSextets]
  | [b0, b1, b2, b3] => simp [toSextets]
  | [b0, b1, b2, b3, b4] => simp [toSextets]
  | b0 :: b1 :: b2 :: b3 :: b4 :: b5 :: rest => simp [toSextets]

/-- One-step unfolding of `bitsToBytes` in take/drop form. -/
theorem bitsToBytes_eq (l : List Bool) :
    bitsToBytes l = if l.length < 8 then []
      else bitsVal (l.take 8) :: bitsToBytes (l.drop 8) := by
  match l with
  | [] => rfl
  | [b0] => simp [bitsToBytes]
  | [b0, b1] => simp [bitsToBytes]
  | [b0, b1, b2] => simp [bitsToBytes]
  | [b0, b1, b2, b3] => simp [bitsToBytes]
  | [b0, b1, b2, b3, b4] => simp [bitsToBytes]
  | [b0, b1, b2, b3, b4, b5] => simp [bitsToBytes]
  | [b0, b1, b2, b3, b4, b5, b6] => simp [bitsToBytes]
  | b0 :: b1 :: b2 :: b3 :: b4 :: b5 :: b6 :: b7 :: rest =>
    simp [bitsToBytes]
    rw [if_neg (by omega)]

/-- Induction along six-bit chunks. -/
theorem chunk6_induction (motive : List Bool → Prop) (h1 : motive [])
    (h2 : ∀ x : List Bool, x ≠ [] → motive (x.drop 6) → motive x) :
    ∀ l, motive l := by
  intro l
  induction l using toSextets.induct with
  | case1 => exact h1
  | case2 b0 b1 b2 b3 b4 b5 rest ih => exact h2 _ (by simp) ih
  | case3 l hnil hlong =>
    have hne : l ≠ [] := fun hc => hnil hc
    have hlen : l.length < 6 := by
      rcases l with _ | ⟨b0, _ | ⟨b1, _ | ⟨b2, _ | ⟨b3, _ | ⟨b4, _ | ⟨b5, rest⟩⟩⟩⟩⟩⟩
      · simp
      · simp
      · simp
      · simp
      · simp
      · simp
      · exact absurd rfl (hlong b0 b1 b2 b3 b4 b5 rest)
    have hdrop : l.drop 6 = [] := List.drop_eq_nil_of_le (by omega)
    exact h2 l hne (hdrop ▸ h1)

/-- Induction along eight-bit chunks. -/
theorem chunk8_induction (motive : List Bool → Prop)
    (h1 : ∀ l : List Bool, l.length < 8 → motive l)
    (h2 : ∀ l : List Bool, ¬ l.length < 8 → motive (l.drop 8) → motive l) :
    ∀ l, motive l := by
  intro l
  induction l using bitsToBytes.induct with
  | case1 b0 b1 b2 b3 b4 b5 b6 b7 rest ih =>
    exact h2 _ (by simp) ih
  | case2 t hlong =>
    have hlen : t.length < 8 := by
      rcases t with _ | ⟨b0, _ | ⟨b1, _ | ⟨b2, _ | ⟨b3, _ | ⟨b4, _ | ⟨b5, _ | ⟨b6, _ |
        ⟨b7, rest⟩⟩⟩⟩⟩⟩⟩⟩
      · simp
      · simp
      · simp
      · simp
      · simp
      · simp
      · simp
      · simp
      · exact absurd rfl (hlong b0 b1 b2 b3 b4 b5 b6 b7 rest)
    exact h1 t hlen

/-- The base64 alphabet: sextet value to character code. -/
def encChar (i : Nat) : Nat :=
  if i < 26 then 65 + i
  else if i < 52 then 71 + i
  else if i < 62 then i - 4
  else if i = 62 then 43
  else 47

/-- Character code to sextet value; `none` for characters outside the
base64 alphabet (`=` included). -/
def decChar (c : Nat) : Option Nat :=
  if 65 ≤ c ∧ c ≤ 90 then some (c - 65)
  else if 97 ≤ c ∧ c ≤ 122 then some (c - 71)
  else if 48 ≤ c ∧ c ≤ 57 then some (c + 4)
  else if c = 43 then some 62
  else if c = 47 then some 63
  else none

/-- ASCII whitespace, as removed by forgiving base64 decoding. -/
def isWs (c : Nat) : Bool :=
  c == 9 || c == 10 || c == 12 || c == 13 || c == 32

/-- Strip up to two trailing `=` characters (code 61); the padding-removal
step of forgiving base64 decoding. -/
def stripPads (l : List Nat) : List Nat :=
  if l.getLast? = some 61 then
    if l.dropLast.getLast? = some 61 then l.dropLast.dropLast else l.dropLast
  else l

/-- The alphabet characters of the base64 encoding of a byte string. -/
def b64chars (bs : List Nat) : List Nat :=
  (toSextets (bytesToBits bs)).map encChar

/-- Number of `=` padding characters appended for `m` alphabet characters. -/
def padCount (m : Nat) : Nat :=
  (4 - m % 4) % 4

/-- `btoa` on a byte string: standard base64 with `=` padding. -/
def b64encode (bs : List Nat) : List Nat :=
  b64chars bs ++ List.replicate (padCount (b64chars bs).length) 61

/-- Steps 1–2 of forgiving base64 decoding: remove ASCII whitespace, then
strip up to two trailing `=` when the length is a multiple of 4. -/
def preprocess (s : List Nat) : List Nat :=
  if (s.filter (fun c => !(isWs c))).length % 4 = 0 then
    stripPads (s.filter (fun c => !(isWs c)))
  else s.filter (fun c => !(isWs c))

/-- Steps 3–5 of forgiving base64 decoding: length check, alphabet check,
bit regrouping (leftover bits discarded). -/
def decodeChars (s2 : List Nat) : Option (List Nat) :=
  if s2.length % 4 = 1 then none
  else if s2.all (fun c => (decChar c).isSome) then
    some (bitsToBytes (s2.flatMap (fun c => sextetBits ((decChar c).getD 0))))
  else none

/-- `atob`: the WHATWG forgiving-base64 decode.  Returns `none` where the
browser throws `InvalidCharacterError`. -/
def forgivingDecode (s : List Nat) : Option (List Nat) :=
  decodeChars (preprocess s)

/-! ## Envelope cipher (`encryptData` / `decryptData`)

`encryptData` draws a fresh 12-byte IV, calls WebCrypto AES-GCM, prefixes
the IV and base64-frames the result; `decryptData` base64-decodes, slices
off the first 12 bytes as the IV and hands the rest to AES-GCM, which
verifies the authentication tag.

Modelled from the spec: AES-GCM itself is a platform capability
(`window.crypto.subtle`, an external collaborator, spec §6).  The spec fixes
its contract — authenticated encryption whose tag binds key, nonce and
message, so that "any tampering or wrong key produces `AuthenticationFailed`,
never truncated/garbled output".  We model it as an ideal authenticated
cipher: the "ciphertext" is the plaintext followed by a tag that binds the
key, the IV and the plaintext injectively (`tag = key ++ iv ++ plaintext`).
Secrecy is not modelled (no claim below is about secrecy); authentication is
modelled as perfect, which is AES-GCM's contract up to negligible forgery
probability.  The IV is an explicit parameter standing for the fresh
randomness drawn by the source (`crypto.getRandomValues`), and plaintext
strings are represented by their UTF-8 byte sequences (`TextEncoder` /
`TextDecoder` are inverse on them). -/

/-- The byte string handed to base64 framing: `iv || ciphertext` where the
ideal AES-GCM ciphertext is `plaintext || tag`, `tag = key ++ iv ++ plaintext`. -/
def encBytes (p key iv : List Nat) : List Nat :=
  iv ++ p ++ (key ++ iv ++ p)

/-- `encryptData` from `src/src/lib/encryption.ts`: encrypt and frame as
`btoa(iv || ciphertext)`.  `p` is the plaintext's UTF-8 bytes, `key` the
32-byte vault key, `iv` the 12 random bytes drawn for this call. -/
def encryptData (p key iv : List Nat) : List Nat :=
  b64encode (encBytes p key iv)

/-- Failures of `decryptData`: `badBase64` is the `InvalidCharacterError`
thrown by `atob` on malformed input, `authFailed` is the WebCrypto
`OperationError` on tag verification failure. -/
inductive DecErr where
  | badBase64 : DecErr
  | authFailed : DecErr
deriving DecidableEq

/-- The AES-GCM step of `decryptData` on the decoded bytes `iv || ciphertext`
(ideal model: parse `plaintext || tag` out of the ciphertext and verify the
tag against the supplied key and the received IV). -/
def decryptBytes (combined key : List Nat) : Except DecErr (List Nat) :=
  if 56 ≤ combined.length ∧ (combined.length - 56) % 2 = 0 then
    if (combined.drop 12).drop ((combined.length - 56) / 2)
        = key ++ combined.take 12 ++ (combined.drop 12).take ((combined.length - 56) / 2) then
      .ok ((combined.drop 12).take ((combined.length - 56) / 2))
    else .error .authFailed
  else .error .authFailed

/-- `decryptData` from `src/src/lib/encryption.ts`: `atob`, split the first
12 bytes off as the IV, then AES-GCM-decrypt the remainder with the given
key. -/
def decryptData (blob key : List Nat) : Except DecErr (List Nat) :=
  match forgivingDecode blob with
  | none => .error .badBase64
  | some combined => decryptBytes combined key

/-- Flip bit `bit` of the character at index `pos` (identity when `pos` is
out of range). -/
def flipAt (l : List Nat) (pos bit : Nat) : List Nat :=
  match l, pos with
  | [], _ => []
  | c :: rest, 0 => (c ^^^ (1 <<< bit)) :: rest
  | c :: rest, n + 1 => c :: flipAt rest n bit

/-! ### Facts about the bit/byte/base64 primitives -/

theorem bitsVal_byteBits : ∀ b : Nat, b < 256 → bitsVal (byteBits b) = b := by
  decide

theorem sextetBits_bitsVal : ∀ l : List Bool, l.length = 6 → sextetBits (bitsVal l) = l := by
  intro l hl
  match l, hl with
  | [a, b, c, d, e, f], _ =>
    cases a <;> cases b <;> cases c <;> cases d <;> cases e <;> cases f <;> decide

theorem bitsVal_lt (l : List Bool) : bitsVal l < 2 ^ l.length := by
  induction l using List.reverseRecOn with
  | nil => decide
  | append_singleton xs x ih =>
    simp only [bitsVal, List.foldl_append, List.foldl_cons, List.foldl_nil,
      List.length_append, List.length_singleton] at *
    cases x <;> simp <;> omega

theorem decChar_encChar : ∀ v : Nat, v < 64 → decChar (encChar v) = some v := by
  decide

theorem encChar_not_ws : ∀ v : Nat, v < 64 → isWs (encChar v) = false := by
  decide

theorem encChar_ne_61 : ∀ v : Nat, v < 64 → encChar v ≠ 61 := by
  decide

theorem isWs_61 : isWs 61 = false := by decide

theorem decChar_61 : decChar 61 = none := by decide

theorem toSextets_nil : toSextets [] = [] := rfl

theorem toSextets_mem_lt (L : List Bool) : ∀ v ∈ toSextets L, v < 64 := by
  induction L using chunk6_induction with
  | h1 => simp [toSextets_nil]
  | h2 x hx ih =>
    rw [toSextets_eq, if_neg hx]
    intro v hv
    rcases List.mem_cons.mp hv with h | h
    · subst h
      have hlen : (x.take 6 ++ List.replicate (6 - (x.take 6).length) false).length = 6 := by
        simp only [List.length_append, List.length_take, List.length_replicate]
        have := List.length_take_le 6 x
        omega
      have := bitsVal_lt (x.take 6 ++ List.replicate (6 - (x.take 6).length) false)
      rw [hlen] at this
      exact this
    · exact ih v h

/-- Decoding the sextet values back to bits recovers the bit stream, plus the
zero bits the final partial group was padded with. -/
theorem toSextets_flatMap (L : List Bool) :
    (toSextets L).flatMap sextetBits = L ++ List.replicate ((6 - L.length % 6) % 6) false := by
  induction L using chunk6_induction with
  | h1 => simp [toSextets_nil]
  | h2 x hx ih =>
    rw [toSextets_eq, if_neg hx]
    rw [List.flatMap_cons]
    have hlen : (x.take 6 ++ List.replicate (6 - (x.take 6).length) false).length = 6 := by
      simp only [List.length_append, List.length_take, List.length_replicate]
      have := List.length_take_le 6 x
      omega
    rw [sextetBits_bitsVal _ hlen]
    have hx0 : x.length ≠ 0 := fun hl => hx (List.length_eq_zero.mp hl)
    by_cases h6 : 6 ≤ x.length
    · rw [ih]
      have ht : (x.take 6).length = 6 := by
        rw [List.length_take]
        exact Nat.min_eq_left h6
      rw [ht, Nat.sub_self, List.replicate_zero, List.append_nil, ← List.append_assoc,
        List.take_append_drop]
      have hc : (6 - (List.drop 6 x).length % 6) % 6 = (6 - x.length % 6) % 6 := by
        rw [List.length_drop]
        omega
      rw [hc]
    · have hdrop : x.drop 6 = [] := List.drop_eq_nil_of_le (by omega)
      have htake : x.take 6 = x := List.take_of_length_le (by omega)
      rw [hdrop, toSextets_nil, List.flatMap_nil, List.append_nil, htake]
      have hc : 6 - x.length = (6 - x.length % 6) % 6 := by omega
      rw [hc]

theorem bitsToBytes_nil : bitsToBytes [] = [] := rfl

theorem bitsToBytes_short (l : List Bool) (h : l.length < 8) : bitsToBytes l = [] := by
  rw [bitsToBytes_eq, if_pos h]

/-- Regrouping the bit stream of a byte string into bytes recovers the byte
string; trailing bits that do not fill a byte are discarded. -/
theorem bitsToBytes_bytesToBits (bs : List Nat) (extra : List Bool)
    (hb : ∀ b ∈ bs, b < 256) (he : extra.length < 8) :
    bitsToBytes (bytesToBits bs ++ extra) = bs := by
  induction bs with
  | nil =>
    simp only [bytesToBits, List.flatMap_nil, List.nil_append]
    exact bitsToBytes_short extra he
  | cons b rest ih =>
    have hbb : (byteBits b).length = 8 := by simp [byteBits]
    have hstep : bytesToBits (b :: rest) ++ extra
        = byteBits b ++ (bytesToBits rest ++ extra) := by
      simp [bytesToBits, List.append_assoc]
    rw [hstep, bitsToBytes_eq]
    have hge : ¬ (byteBits b ++ (bytesToBits rest ++ extra)).length < 8 := by
      simp only [List.length_append, hbb]
      omega
    rw [if_neg hge]
    have htake : (byteBits b ++ (bytesToBits rest ++ extra)).take 8 = byteBits b := by
      have := List.take_left (byteBits b) (bytesToBits rest ++ extra)
      rwa [hbb] at this
    have hdrop : (byteBits b ++ (bytesToBits rest ++ extra)).drop 8 = bytesToBits rest ++ extra := by
      have := List.drop_left (byteBits b) (bytesToBits rest ++ extra)
      rwa [hbb] at this
    rw [htake, hdrop, bitsVal_byteBits b (hb b (List.mem_cons_self b rest)),
      ih (fun x hx => hb x (List.mem_cons_of_mem b hx))]

theorem length_bytesToBits (bs : List Nat) : (bytesToBits bs).length = 8 * bs.length := by
  induction bs with
  | nil => simp [bytesToBits]
  | cons b rest ih =>
    simp only [bytesToBits, List.flatMap_cons, List.length_append] at *
    simp [byteBits, ih]
    ring

theorem length_toSextets (L : List Bool) : (toSextets L).length = (L.length + 5) / 6 := by
  induction L using chunk6_induction with
  | h1 => simp [toSextets_nil]
  | h2 x hx ih =>
    rw [toSextets_eq, if_neg hx]
    have hx0 : x.length ≠ 0 := fun hl => hx (List.length_eq_zero.mp hl)
    simp only [List.length_cons, ih, List.length_drop]
    omega

theorem length_bitsToBytes (L : List Bool) : (bitsToBytes L).length = L.length / 8 := by
  induction L using chunk8_induction with
  | h1 l h =>
    rw [bitsToBytes_short l h]
    simp
    omega
  | h2 l h ih =>
    rw [bitsToBytes_eq, if_neg h]
    simp only [List.length_cons, ih, List.length_drop]
    omega

/-! ### `stripPads` behaviour -/

theorem stripPads_no_pad (l : List Nat) (h : ∀ c ∈ l, c ≠ 61) : stripPads l = l := by
  unfold stripPads
  have h1 : ¬ l.getLast? = some 61 := by
    intro hc
    exact h 61 (List.mem_of_mem_getLast? hc) rfl
  rw [if_neg h1]

theorem stripPads_one_pad (xs : List Nat) (h : ∀ c ∈ xs, c ≠ 61) :
    stripPads (xs ++ [61]) = xs := by
  unfold stripPads
  rw [List.getLast?_concat, if_pos rfl, List.dropLast_concat]
  have h1 : ¬ xs.getLast? = some 61 := by
    intro hc
    exact h 61 (List.mem_of_mem_getLast? hc) rfl
  rw [if_neg h1]

theorem stripPads_two_pads (xs : List Nat) : stripPads (xs ++ [61, 61]) = xs := by
  unfold stripPads
  have he : xs ++ [61, 61] = (xs ++ [61]) ++ [61] := by simp
  rw [he, List.getLast?_concat, if_pos rfl, List.dropLast_concat, List.getLast?_concat,
    if_pos rfl, List.dropLast_concat]

/-! ### Round trip: decoding an encoded byte string -/

theorem b64chars_mem_lt (bs : List Nat) :
    ∀ c ∈ b64chars bs, ∃ v, v < 64 ∧ c = encChar v := by
  intro c hc
  rcases List.mem_map.mp hc with ⟨v, hv, rfl⟩
  exact ⟨v, toSextets_mem_lt _ v hv, rfl⟩

theorem b64chars_not_ws (bs : List Nat) : ∀ c ∈ b64chars bs, isWs c = false := by
  intro c hc
  rcases b64chars_mem_lt bs c hc with ⟨v, hv, rfl⟩
  exact encChar_not_ws v hv

theorem b64chars_ne_61 (bs : List Nat) : ∀ c ∈ b64chars bs, c ≠ 61 := by
  intro c hc
  rcases b64chars_mem_lt bs c hc with ⟨v, hv, rfl⟩
  exact encChar_ne_61 v hv

theorem b64chars_valid (bs : List Nat) : ∀ c ∈ b64chars bs, (decChar c).isSome := by
  intro c hc
  rcases b64chars_mem_lt bs c hc with ⟨v, hv, rfl⟩
  rw [decChar_encChar v hv]
  rfl

theorem length_b64chars (bs : List Nat) :
    (b64chars bs).length = (8 * bs.length + 5) / 6 := by
  rw [b64chars, List.length_map, length_toSextets, length_bytesToBits]

/-- The character count of a base64 encoding is never `≡ 1 (mod 4)`. -/
theorem length_b64chars_mod (bs : List Nat) : (b64chars bs).length % 4 ≠ 1 := by
  rw [length_b64chars]
  omega

/-- The sextet decoding of the alphabet characters is the original bit
stream plus the zero padding bits. -/
theorem b64chars_decode_bits (bs : List Nat) :
    (b64chars bs).flatMap (fun c => sextetBits ((decChar c).getD 0))
      = bytesToBits bs ++ List.replicate ((6 - (8 * bs.length) % 6) % 6) false := by
  rw [b64chars, List.flatMap_map]
  have hcong : (toSextets (bytesToBits bs)).flatMap
        (fun v => sextetBits ((decChar (encChar v)).getD 0))
      = (toSextets (bytesToBits bs)).flatMap sextetBits := by
    apply List.flatMap_congr
    intro v hv
    rw [decChar_encChar v (toSextets_mem_lt _ v hv)]
    rfl
  rw [hcong, toSextets_flatMap, length_bytesToBits]

/-- Preprocessing an encoded string removes exactly the `=` padding. -/
theorem preprocess_b64encode (bs : List Nat) :
    preprocess (b64encode bs) = b64chars bs := by
  unfold preprocess b64encode
  have hfil : (b64chars bs ++ List.replicate (padCount (b64chars bs).length) 61).filter
      (fun c => !(isWs c)) = b64chars bs ++ List.replicate (padCount (b64chars bs).length) 61 := by
    apply List.filter_eq_self.mpr
    intro c hc
    rcases List.mem_append.mp hc with h | h
    · rw [b64chars_not_ws bs c h]
      rfl
    · rw [List.eq_of_mem_replicate h, isWs_61]
      rfl
  rw [hfil]
  have hmod4 : (b64chars bs ++ List.replicate (padCount (b64chars bs).length) 61).length % 4
      = 0 := by
    simp only [List.length_append, List.length_replicate, padCount]
    omega
  rw [if_pos hmod4]
  have hmodne := length_b64chars_mod bs
  have hpad : padCount (b64chars bs).length = 0 ∨ padCount (b64chars bs).length = 1 ∨
      padCount (b64chars bs).length = 2 := by
    unfold padCount
    omega
  rcases hpad with h | h | h
  · rw [h, List.replicate_zero, List.append_nil]
    exact stripPads_no_pad _ (b64chars_ne_61 bs)
  · rw [h]
    exact stripPads_one_pad _ (b64chars_ne_61 bs)
  · rw [h]
    exact stripPads_two_pads _

/-- Decoding the alphabet characters of an encoding recovers the bytes. -/
theorem decodeChars_b64chars (bs : List Nat) (hb : ∀ b ∈ bs, b < 256) :
    decodeChars (b64chars bs) = some bs := by
  unfold decodeChars
  rw [if_neg (length_b64chars_mod bs)]
  have hall : (b64chars bs).all (fun c => (decChar c).isSome) = true := by
    rw [List.all_eq_true]
    intro c hc
    rw [b64chars_valid bs c hc]
  rw [if_pos hall, b64chars_decode_bits]
  rw [bitsToBytes_bytesToBits bs _ hb (by simp only [List.length_replicate]; omega)]

/-- `atob (btoa s) = s`: forgiving decoding inverts the encoding. -/
theorem forgivingDecode_b64encode (bs : List Nat) (hb : ∀ b ∈ bs, b < 256) :
    forgivingDecode (b64encode bs) = some bs := by
  rw [forgivingDecode, preprocess_b64encode, decodeChars_b64chars bs hb]

/-! ### The cipher on decoded bytes -/

theorem length_encBytes (p key iv : List Nat) (hk : key.length = 32) (hiv : iv.length = 12) :
    (encBytes p key iv).length = 56 + 2 * p.length := by
  simp only [encBytes, List.length_append, hk, hiv]
  omega

theorem encBytes_assoc (p key iv : List Nat) :
    encBytes p key iv = iv ++ (p ++ (key ++ iv ++ p)) := by
  simp [encBytes]

theorem take12_encBytes (p key iv : List Nat) (hiv : iv.length = 12) :
    (encBytes p key iv).take 12 = iv := by
  rw [encBytes_assoc, ← hiv, List.take_left]

theorem drop12_encBytes (p key iv : List Nat) (hiv : iv.length = 12) :
    (encBytes p key iv).drop 12 = p ++ (key ++ iv ++ p) := by
  rw [encBytes_assoc, ← hiv, List.drop_left]

/-- Decrypting honest cipher bytes with the right key succeeds. -/
theorem decryptBytes_encBytes (p key iv : List Nat) (hk : key.length = 32)
    (hiv : iv.length = 12) : decryptBytes (encBytes p key iv) key = .ok p := by
  have hlen := length_encBytes p key iv hk hiv
  unfold decryptBytes
  rw [hlen]
  have hcond : 56 ≤ 56 + 2 * p.length ∧ (56 + 2 * p.length - 56) % 2 = 0 := by omega
  rw [if_pos hcond]
  have hl2 : (56 + 2 * p.length - 56) / 2 = p.length := by omega
  rw [hl2, drop12_encBytes p key iv hiv, take12_encBytes p key iv hiv,
    List.take_left, List.drop_left, if_pos rfl]

/-- Decrypting honest cipher bytes with any other 32-byte key fails with
an authentication failure. -/
theorem decryptBytes_wrong_key (p key key2 iv : List Nat) (hk : key.length = 32)
    (hne : key ≠ key2) (hiv : iv.length = 12) :
    decryptBytes (encBytes p key iv) key2 = .error .authFailed := by
  have hlen := length_encBytes p key iv hk hiv
  unfold decryptBytes
  rw [hlen]
  have hcond : 56 ≤ 56 + 2 * p.length ∧ (56 + 2 * p.length - 56) % 2 = 0 := by omega
  rw [if_pos hcond]
  have hl2 : (56 + 2 * p.length - 56) / 2 = p.length := by omega
  rw [hl2, drop12_encBytes p key iv hiv, take12_encBytes p key iv hiv,
    List.take_left, List.drop_left]
  have hneq : key ++ iv ++ p ≠ key2 ++ iv ++ p := by
    intro hc
    exact hne (List.append_cancel_right (List.append_cancel_right hc))
  rw [if_neg hneq]

/-- Characterisation of successful decryption: the decoded bytes carry the
authenticated structure `iv || q || tag(key, iv, q)`. -/
theorem decryptBytes_ok (c key q : List Nat) (h : decryptBytes c key = .ok q) :
    56 ≤ c.length ∧ (c.length - 56) % 2 = 0 ∧
      q = (c.drop 12).take ((c.length - 56) / 2) ∧
      c = c.take 12 ++ q ++ (key ++ c.take 12 ++ q) := by
  unfold decryptBytes at h
  split_ifs at h with h1 h2
  · refine ⟨h1.1, h1.2, ?_, ?_⟩
    · exact (Except.ok.injEq _ _).mp h.symm
    · have hq : q = (c.drop 12).take ((c.length - 56) / 2) :=
        (Except.ok.injEq _ _).mp h.symm
      have hsplit : c = c.take 12 ++ ((c.drop 12).take ((c.length - 56) / 2)
          ++ (c.drop 12).drop ((c.length - 56) / 2)) := by
        rw [List.take_append_drop, List.take_append_drop]
      rw [h2, ← hq] at hsplit
      nth_rewrite 1 [hsplit]
      simp [List.append_assoc]

theorem length_flatMap_sextets (l : List Nat) (f : Nat → Nat) :
    (l.flatMap (fun c => sextetBits (f c))).length = 6 * l.length := by
  induction l with
  | nil => simp
  | cons a rest ih =>
    rw [List.flatMap_cons, List.length_append, ih]
    simp [sextetBits]
    omega

theorem decodeChars_some_length (s2 b : List Nat) (h : decodeChars s2 = some b) :
    b.length = 6 * s2.length / 8 := by
  unfold decodeChars at h
  split_ifs at h with h1 h2
  have hb : b = bitsToBytes (s2.flatMap (fun c => sextetBits ((decChar c).getD 0))) :=
    (Option.some.injEq _ _).mp h.symm
  rw [hb, length_bitsToBytes, length_flatMap_sextets]

/-! ### Effect of a single bit flip on decoding

The analysis splits on what character the flipped byte becomes: another
alphabet character, `=`, ASCII whitespace, or garbage. -/

theorem decodeChars_none_of_invalid (s2 : List Nat) (c : Nat) (hc : c ∈ s2)
    (hinv : decChar c = none) : decodeChars s2 = none := by
  unfold decodeChars
  split_ifs with h1 h2
  · rfl
  · exfalso
    have := List.all_eq_true.mp h2 c hc
    rw [hinv] at this
    exact Bool.noConfusion this
  · rfl

theorem xor_flip_ne (c bit : Nat) : c ^^^ (1 <<< bit) ≠ c := by
  intro hc
  have hb : (1 : Nat) <<< bit ≠ 0 := by
    rw [Nat.one_shiftLeft]
    positivity
  apply hb
  have h1 : c ^^^ (c ^^^ (1 <<< bit)) = c ^^^ c := by rw [hc]
  rwa [← Nat.xor_assoc, Nat.xor_self, Nat.zero_xor] at h1

theorem flipAt_append_left (u v : List Nat) (pos bit : Nat) (h : pos < u.length) :
    flipAt (u ++ v) pos bit = flipAt u pos bit ++ v := by
  induction u generalizing pos with
  | nil => simp at h
  | cons a rest ih =>
    cases pos with
    | zero => rfl
    | succ n =>
      have h1 : flipAt ((a :: rest) ++ v) (n + 1) bit = a :: flipAt (rest ++ v) n bit := rfl
      have h2 : flipAt (a :: rest) (n + 1) bit = a :: flipAt rest n bit := rfl
      rw [h1, h2, ih n (by simp at h; omega)]
      rfl

theorem flipAt_append_right (u v : List Nat) (pos bit : Nat) (h : u.length ≤ pos) :
    flipAt (u ++ v) pos bit = u ++ flipAt v (pos - u.length) bit := by
  induction u generalizing pos with
  | nil => simp
  | cons a rest ih =>
    cases pos with
    | zero => simp at h
    | succ n =>
      have h1 : flipAt ((a :: rest) ++ v) (n + 1) bit = a :: flipAt (rest ++ v) n bit := rfl
      rw [h1, ih n (by simp at h; omega)]
      simp only [List.length_cons, List.cons_append, List.cons.injEq, true_and]
      congr 2
      omega

theorem flipAt_cons_zero (c : Nat) (rest : List Nat) (bit : Nat) :
    flipAt (c :: rest) 0 bit = (c ^^^ (1 <<< bit)) :: rest := rfl

theorem flipAt_oob (l : List Nat) (pos bit : Nat) (h : l.length ≤ pos) :
    flipAt l pos bit = l := by
  induction l generalizing pos with
  | nil => rfl
  | cons a rest ih =>
    cases pos with
    | zero => simp at h
    | succ n =>
      simp only [flipAt, List.cons.injEq, true_and]
      exact ih n (by simp at h; omega)

theorem stripPads_last_ne (l : List Nat) (h : l.getLast? ≠ some 61) : stripPads l = l := by
  unfold stripPads
  rw [if_neg h]

theorem stripPads_one_pad_of_last_ne (xs : List Nat) (h : xs.getLast? ≠ some 61) :
    stripPads (xs ++ [61]) = xs := by
  unfold stripPads
  rw [List.getLast?_concat, if_pos rfl, List.dropLast_concat, if_neg h]

theorem decChar_isSome_not_ws (c : Nat) (h : (decChar c).isSome) : isWs c = false := by
  unfold decChar at h
  simp only [isWs, Bool.or_eq_false_iff, beq_eq_false_iff_ne, ne_eq]
  split_ifs at h with h1 h2 h3 h4 h5
  · omega
  · omega
  · omega
  · omega
  · omega
  · simp at h

theorem decChar_isSome_ne_61 (c : Nat) (h : (decChar c).isSome) : c ≠ 61 := by
  unfold decChar at h
  split_ifs at h with h1 h2 h3 h4 h5
  · omega
  · omega
  · omega
  · omega
  · omega
  · simp at h

theorem encChar_decChar (c v : Nat) (h : decChar c = some v) :
    v < 64 ∧ encChar v = c := by
  unfold decChar at h
  split_ifs at h <;> injection h with hv <;> subst hv <;>
    (constructor
     · omega
     · unfold encChar
       split_ifs <;> omega)

theorem flipAt_eq_set (l : List Nat) (pos bit : Nat) (h : pos < l.length) :
    flipAt l pos bit = l.take pos ++ (l.getD pos 0 ^^^ (1 <<< bit)) :: l.drop (pos + 1) := by
  induction l generalizing pos with
  | nil => simp at h
  | cons a rest ih =>
    cases pos with
    | zero => simp [flipAt]
    | succ n =>
      have h1 : flipAt (a :: rest) (n + 1) bit = a :: flipAt rest n bit := rfl
      rw [h1, ih n (by simp at h; omega)]
      rfl

theorem getD_mem (l : List Nat) (pos : Nat) (h : pos < l.length) : l.getD pos 0 ∈ l := by
  rw [List.getD_eq_getElem l 0 h]
  exact List.getElem_mem h

theorem filter_not_ws_eq_self (l : List Nat) (h : ∀ c ∈ l, isWs c = false) :
    l.filter (fun c => !(isWs c)) = l := by
  apply List.filter_eq_self.mpr
  intro c hc
  rw [h c hc]
  rfl

theorem getLast?_some_of_ne_nil (l : List Nat) (h : l ≠ []) : ∃ y, l.getLast? = some y := by
  rcases l with _ | ⟨x, xs⟩
  · exact absurd rfl h
  · exact ⟨(x :: xs).getLast (by simp), List.getLast?_eq_getLast _ _⟩

theorem getLast?_cons_of_ne_nil (a : Nat) (l : List Nat) (h : l ≠ []) :
    (a :: l).getLast? = l.getLast? := by
  have hc : a :: l = [a] ++ l := rfl
  rw [hc, List.getLast?_append_of_ne_nil _ h]

/-- The last element of a list of alphabet characters of an encoding is
never `=`. -/
theorem take_getLast_ne_61 (bs : List Nat) (pos : Nat) :
    ((b64chars bs).take pos).getLast? ≠ some 61 := by
  intro hcon
  have hmem : (61 : Nat) ∈ (b64chars bs).take pos := by
    have := List.mem_of_mem_getLast? hcon
    exact this
  exact b64chars_ne_61 bs 61 (List.mem_of_mem_take hmem) rfl

/-- The last element of a modified character list (`c'` written at a
position that is not the last) is never `=`. -/
theorem modified_getLast_ne_61_of_drop_ne_nil (bs : List Nat) (pos : Nat) (c' : Nat)
    (hd : (b64chars bs).drop (pos + 1) ≠ []) :
    ((b64chars bs).take pos ++ c' :: (b64chars bs).drop (pos + 1)).getLast? ≠ some 61 := by
  rw [List.getLast?_append_of_ne_nil _ (by simp [hd]), getLast?_cons_of_ne_nil _ _ hd]
  rcases getLast?_some_of_ne_nil _ hd with ⟨y, hy⟩
  rw [hy]
  intro hcon
  have hymem : y ∈ b64chars bs :=
    List.mem_of_mem_drop (List.mem_of_mem_getLast? hy)
  exact b64chars_ne_61 bs y hymem ((Option.some.injEq _ _).mp hcon)

/-- The last element of a modified character list (`c'` written at position
`pos` of the alphabet characters) is never `=` when `c'` is not. -/
theorem modified_getLast_ne_61 (bs : List Nat) (pos : Nat) (c' : Nat)
    (h61 : c' ≠ 61) :
    ((b64chars bs).take pos ++ c' :: (b64chars bs).drop (pos + 1)).getLast? ≠ some 61 := by
  by_cases hd : (b64chars bs).drop (pos + 1) = []
  · rw [hd]
    rw [List.getLast?_concat]
    intro hcon
    exact h61 ((Option.some.injEq _ _).mp hcon)
  · exact modified_getLast_ne_61_of_drop_ne_nil bs pos c' hd

/-- Flipping a character-region bit to a non-whitespace, non-`=` character:
preprocessing yields exactly the modified character list. -/
theorem preprocess_flip_char (bs : List Nat) (pos bit : Nat)
    (hpos : pos < (b64chars bs).length)
    (hws : isWs ((b64chars bs).getD pos 0 ^^^ (1 <<< bit)) = false)
    (h61 : (b64chars bs).getD pos 0 ^^^ (1 <<< bit) ≠ 61) :
    preprocess (flipAt (b64encode bs) pos bit)
      = (b64chars bs).take pos ++ ((b64chars bs).getD pos 0 ^^^ (1 <<< bit))
          :: (b64chars bs).drop (pos + 1) := by
  have hE : b64encode bs
      = b64chars bs ++ List.replicate (padCount (b64chars bs).length) 61 := rfl
  have hflip : flipAt (b64encode bs) pos bit
      = ((b64chars bs).take pos ++ ((b64chars bs).getD pos 0 ^^^ (1 <<< bit))
          :: (b64chars bs).drop (pos + 1))
        ++ List.replicate (padCount (b64chars bs).length) 61 := by
    rw [hE, flipAt_append_left _ _ _ _ hpos, flipAt_eq_set _ _ _ hpos]
  have hXws : ∀ c ∈ (b64chars bs).take pos ++ ((b64chars bs).getD pos 0 ^^^ (1 <<< bit))
      :: (b64chars bs).drop (pos + 1), isWs c = false := by
    intro c hc
    rcases List.mem_append.mp hc with h | h
    · exact b64chars_not_ws bs c (List.mem_of_mem_take h)
    · rcases List.mem_cons.mp h with h | h
      · rw [h]
        exact hws
      · exact b64chars_not_ws bs c (List.mem_of_mem_drop h)
  have hfil : (flipAt (b64encode bs) pos bit).filter (fun c => !(isWs c))
      = ((b64chars bs).take pos ++ ((b64chars bs).getD pos 0 ^^^ (1 <<< bit))
          :: (b64chars bs).drop (pos + 1))
        ++ List.replicate (padCount (b64chars bs).length) 61 := by
    rw [hflip]
    apply filter_not_ws_eq_self
    intro c hc
    rcases List.mem_append.mp hc with h | h
    · exact hXws c h
    · rw [List.eq_of_mem_replicate h]
      exact isWs_61
  have hXlen : ((b64chars bs).take pos ++ ((b64chars bs).getD pos 0 ^^^ (1 <<< bit))
      :: (b64chars bs).drop (pos + 1)).length = (b64chars bs).length := by
    simp only [List.length_append, List.length_take, List.length_cons, List.length_drop]
    omega
  have hmod : (((b64chars bs).take pos ++ ((b64chars bs).getD pos 0 ^^^ (1 <<< bit))
      :: (b64chars bs).drop (pos + 1))
        ++ List.replicate (padCount (b64chars bs).length) 61).length % 4 = 0 := by
    simp only [List.length_append, hXlen, List.length_replicate, padCount]
    omega
  unfold preprocess
  rw [hfil, if_pos hmod]
  have hmodne := length_b64chars_mod bs
  have hpc : padCount (b64chars bs).length = 0 ∨ padCount (b64chars bs).length = 1 ∨
      padCount (b64chars bs).length = 2 := by
    unfold padCount
    omega
  rcases hpc with h | h | h
  · rw [h, List.replicate_zero, List.append_nil]
    exact stripPads_last_ne _ (modified_getLast_ne_61 bs pos _ h61)
  · rw [h]
    exact stripPads_one_pad_of_last_ne _ (modified_getLast_ne_61 bs pos _ h61)
  · rw [h]
    exact stripPads_two_pads _

/-- Flipping a character-region bit to ASCII whitespace: the character is
removed, the length is no longer a multiple of 4, so no padding is
stripped. -/
theorem preprocess_flip_char_ws (bs : List Nat) (pos bit : Nat)
    (hpos : pos < (b64chars bs).length)
    (hws : isWs ((b64chars bs).getD pos 0 ^^^ (1 <<< bit)) = true) :
    preprocess (flipAt (b64encode bs) pos bit)
      = ((b64chars bs).take pos ++ (b64chars bs).drop (pos + 1))
        ++ List.replicate (padCount (b64chars bs).length) 61 := by
  have hE : b64encode bs
      = b64chars bs ++ List.replicate (padCount (b64chars bs).length) 61 := rfl
  have hflip : flipAt (b64encode bs) pos bit
      = ((b64chars bs).take pos ++ ((b64chars bs).getD pos 0 ^^^ (1 <<< bit))
          :: (b64chars bs).drop (pos + 1))
        ++ List.replicate (padCount (b64chars bs).length) 61 := by
    rw [hE, flipAt_append_left _ _ _ _ hpos, flipAt_eq_set _ _ _ hpos]
  have hfil : (flipAt (b64encode bs) pos bit).filter (fun c => !(isWs c))
      = ((b64chars bs).take pos ++ (b64chars bs).drop (pos + 1))
        ++ List.replicate (padCount (b64chars bs).length) 61 := by
    rw [hflip]
    rw [List.filter_append, List.filter_append, List.filter_cons]
    rw [hws]
    simp only [Bool.not_true, Bool.false_eq_true, if_false]
    rw [filter_not_ws_eq_self _ (fun c hc => b64chars_not_ws bs c (List.mem_of_mem_take hc)),
      filter_not_ws_eq_self _ (fun c hc => b64chars_not_ws bs c (List.mem_of_mem_drop hc)),
      filter_not_ws_eq_self _ (fun c hc => by rw [List.eq_of_mem_replicate hc]; exact isWs_61),
      List.append_assoc]
  unfold preprocess
  rw [hfil]
  have hmodne := length_b64chars_mod bs
  have hlen : (((b64chars bs).take pos ++ (b64chars bs).drop (pos + 1))
      ++ List.replicate (padCount (b64chars bs).length) 61).length % 4 ≠ 0 := by
    simp only [List.length_append, List.length_take, List.length_drop,
      List.length_replicate, padCount]
    have := List.length_take_le pos (b64chars bs)
    omega
  rw [if_neg hlen]

/-- Flipping a character-region bit to `=`: either an interior `=` survives
preprocessing (decoding will fail), or the flip hit the final character and
preprocessing strips it together with the padding. -/
theorem preprocess_flip_char_61 (bs : List Nat) (pos bit : Nat)
    (hpos : pos < (b64chars bs).length)
    (h61 : (b64chars bs).getD pos 0 ^^^ (1 <<< bit) = 61) :
    (61 : Nat) ∈ preprocess (flipAt (b64encode bs) pos bit)
    ∨ (preprocess (flipAt (b64encode bs) pos bit) = (b64chars bs).take pos
        ∧ pos + 1 = (b64chars bs).length ∧ padCount (b64chars bs).length ≤ 1) := by
  have hE : b64encode bs
      = b64chars bs ++ List.replicate (padCount (b64chars bs).length) 61 := rfl
  have hflip : flipAt (b64encode bs) pos bit
      = ((b64chars bs).take pos ++ (61 : Nat) :: (b64chars bs).drop (pos + 1))
        ++ List.replicate (padCount (b64chars bs).length) 61 := by
    rw [hE, flipAt_append_left _ _ _ _ hpos, flipAt_eq_set _ _ _ hpos, h61]
  have hfil : (flipAt (b64encode bs) pos bit).filter (fun c => !(isWs c))
      = ((b64chars bs).take pos ++ (61 : Nat) :: (b64chars bs).drop (pos + 1))
        ++ List.replicate (padCount (b64chars bs).length) 61 := by
    rw [hflip]
    apply filter_not_ws_eq_self
    intro c hc
    rcases List.mem_append.mp hc with h | h
    · rcases List.mem_append.mp h with h | h
      · exact b64chars_not_ws bs c (List.mem_of_mem_take h)
      · rcases List.mem_cons.mp h with h | h
        · rw [h]; exact isWs_61
        · exact b64chars_not_ws bs c (List.mem_of_mem_drop h)
    · rw [List.eq_of_mem_replicate h]; exact isWs_61
  have hmodne := length_b64chars_mod bs
  have hmod : (((b64chars bs).take pos ++ (61 : Nat) :: (b64chars bs).drop (pos + 1))
      ++ List.replicate (padCount (b64chars bs).length) 61).length % 4 = 0 := by
    simp only [List.length_append, List.length_take, List.length_cons,
      List.length_drop, List.length_replicate, padCount]
    have := List.length_take_le pos (b64chars bs)
    omega
  unfold preprocess
  rw [hfil, if_pos hmod]
  have hpc : padCount (b64chars bs).length = 0 ∨ padCount (b64chars bs).length = 1 ∨
      padCount (b64chars bs).length = 2 := by
    unfold padCount
    omega
  by_cases hlast : pos + 1 = (b64chars bs).length
  · have hdrop : (b64chars bs).drop (pos + 1) = [] := by
      rw [List.drop_eq_nil_iff]
      omega
    rw [hdrop]
    rcases hpc with h | h | h
    · right
      rw [h, List.replicate_zero, List.append_nil]
      exact ⟨stripPads_one_pad_of_last_ne _ (take_getLast_ne_61 bs pos), hlast, by omega⟩
    · right
      rw [h]
      have hre : ((b64chars bs).take pos ++ [(61 : Nat)]) ++ List.replicate 1 61
          = (b64chars bs).take pos ++ [61, 61] := by simp
      rw [hre]
      exact ⟨stripPads_two_pads _, hlast, by omega⟩
    · left
      rw [h]
      have hre : ((b64chars bs).take pos ++ [(61 : Nat)]) ++ List.replicate 2 61
          = ((b64chars bs).take pos ++ [61]) ++ [61, 61] := by simp
      rw [hre, stripPads_two_pads _]
      simp
  · have hdrop : (b64chars bs).drop (pos + 1) ≠ [] := by
      intro hc
      have := List.drop_eq_nil_iff.mp hc
      omega
    have hlastne := modified_getLast_ne_61_of_drop_ne_nil bs pos 61 hdrop
    left
    rcases hpc with h | h | h
    · rw [h, List.replicate_zero, List.append_nil, stripPads_last_ne _ hlastne]
      simp
    · rw [h]
      have hre : ((b64chars bs).take pos ++ (61 : Nat) :: (b64chars bs).drop (pos + 1))
          ++ List.replicate 1 61
          = ((b64chars bs).take pos ++ (61 : Nat) :: (b64chars bs).drop (pos + 1)) ++ [61] := by
        simp
      rw [hre, stripPads_one_pad_of_last_ne _ hlastne]
      simp
    · rw [h]
      have hre : ((b64chars bs).take pos ++ (61 : Nat) :: (b64chars bs).drop (pos + 1))
          ++ List.replicate 2 61
          = ((b64chars bs).take pos ++ (61 : Nat) :: (b64chars bs).drop (pos + 1))
            ++ [61, 61] := by
        simp
      rw [hre, stripPads_two_pads _]
      simp

/-- Flipping a bit of one of the `=` padding characters: either an invalid
character survives preprocessing (decoding fails), or preprocessing yields
the original alphabet characters (the decode is unchanged), or it yields
the alphabet characters extended by one valid character. -/
theorem preprocess_flip_pad (bs : List Nat) (pos bit : Nat)
    (hlo : (b64chars bs).length ≤ pos) (hhi : pos < (b64encode bs).length) :
    (∃ x ∈ preprocess (flipAt (b64encode bs) pos bit), decChar x = none)
    ∨ preprocess (flipAt (b64encode bs) pos bit) = b64chars bs
    ∨ (preprocess (flipAt (b64encode bs) pos bit)
         = b64chars bs ++ [61 ^^^ (1 <<< bit)]
       ∧ (decChar (61 ^^^ (1 <<< bit))).isSome ∧ padCount (b64chars bs).length ≠ 0) := by
  have hE : b64encode bs
      = b64chars bs ++ List.replicate (padCount (b64chars bs).length) 61 := rfl
  have hmodne := length_b64chars_mod bs
  have hElen : (b64encode bs).length
      = (b64chars bs).length + padCount (b64chars bs).length := by
    rw [hE, List.length_append, List.length_replicate]
  have hj : pos - (b64chars bs).length < padCount (b64chars bs).length := by omega
  have hflip : flipAt (b64encode bs) pos bit
      = b64chars bs
        ++ flipAt (List.replicate (padCount (b64chars bs).length) 61)
            (pos - (b64chars bs).length) bit := by
    rw [hE, flipAt_append_right _ _ _ _ hlo]
  have hc61 : (61 : Nat) ^^^ (1 <<< bit) ≠ 61 := xor_flip_ne 61 bit
  have hfilchars : (b64chars bs).filter (fun c => !(isWs c)) = b64chars bs :=
    filter_not_ws_eq_self _ (b64chars_not_ws bs)
  have hpc : padCount (b64chars bs).length = 1 ∨ padCount (b64chars bs).length = 2 := by
    unfold padCount at hj ⊢
    omega
  have hmval : (b64chars bs).length % 4 ≠ 1 := hmodne
  rcases hpc with hp1 | hp2
  · -- one padding character, necessarily flipped
    have hflip1 : flipAt (b64encode bs) pos bit
        = b64chars bs ++ [61 ^^^ (1 <<< bit)] := by
      rw [hflip, hp1]
      have hj0 : pos - (b64chars bs).length = 0 := by omega
      rw [hj0]
      rfl
    have hm3 : (b64chars bs).length % 4 = 3 := by
      unfold padCount at hp1
      omega
    by_cases hwsb : isWs (61 ^^^ (1 <<< bit)) = true
    · right; left
      unfold preprocess
      have hfil : (flipAt (b64encode bs) pos bit).filter (fun c => !(isWs c))
          = b64chars bs := by
        rw [hflip1, List.filter_append, hfilchars]
        have : ([61 ^^^ (1 <<< bit)] : List Nat).filter (fun c => !(isWs c)) = [] := by
          simp [hwsb]
        rw [this, List.append_nil]
      rw [hfil, if_neg (by omega)]
    · have hfil : (flipAt (b64encode bs) pos bit).filter (fun c => !(isWs c))
          = b64chars bs ++ [61 ^^^ (1 <<< bit)] := by
        rw [hflip1]
        apply filter_not_ws_eq_self
        intro c hc
        rcases List.mem_append.mp hc with h | h
        · exact b64chars_not_ws bs c h
        · rw [List.mem_singleton.mp h]
          exact Bool.not_eq_true _ ▸ (by revert hwsb; cases isWs (61 ^^^ (1 <<< bit)) <;> simp)
      have hs2 : preprocess (flipAt (b64encode bs) pos bit)
          = b64chars bs ++ [61 ^^^ (1 <<< bit)] := by
        unfold preprocess
        rw [hfil, if_pos (by simp only [List.length_append, List.length_singleton]; omega)]
        exact stripPads_last_ne _ (by
          rw [List.getLast?_concat]
          intro hcon
          exact hc61 ((Option.some.injEq _ _).mp hcon))
      by_cases hval : (decChar (61 ^^^ (1 <<< bit))).isSome
      · right; right
        exact ⟨hs2, hval, by omega⟩
      · left
        exact ⟨61 ^^^ (1 <<< bit), by rw [hs2]; simp,
          Option.not_isSome_iff_eq_none.mp hval⟩
  · -- two padding characters
    have hm2 : (b64chars bs).length % 4 = 2 := by
      unfold padCount at hp2
      omega
    have hrep2 : List.replicate (padCount (b64chars bs).length) (61 : Nat) = [61, 61] := by
      rw [hp2]
      rfl
    by_cases hj0 : pos - (b64chars bs).length = 0
    · -- first padding character flipped
      have hflip2 : flipAt (b64encode bs) pos bit
          = b64chars bs ++ [61 ^^^ (1 <<< bit), 61] := by
        rw [hflip, hrep2, hj0]
        rfl
      by_cases hwsb : isWs (61 ^^^ (1 <<< bit)) = true
      · left
        have hfil : (flipAt (b64encode bs) pos bit).filter (fun c => !(isWs c))
            = b64chars bs ++ [61] := by
          rw [hflip2, List.filter_append, hfilchars]
          have : ([61 ^^^ (1 <<< bit), 61] : List Nat).filter (fun c => !(isWs c)) = [61] := by
            simp [hwsb, isWs_61]
          rw [this]
        have hs2 : preprocess (flipAt (b64encode bs) pos bit) = b64chars bs ++ [61] := by
          unfold preprocess
          rw [hfil, if_neg (by simp only [List.length_append, List.length_singleton]; omega)]
        exact ⟨61, by rw [hs2]; simp, decChar_61⟩
      · have hfil : (flipAt (b64encode bs) pos bit).filter (fun c => !(isWs c))
            = b64chars bs ++ [61 ^^^ (1 <<< bit), 61] := by
          rw [hflip2]
          apply filter_not_ws_eq_self
          intro c hc
          rcases List.mem_append.mp hc with h | h
          · exact b64chars_not_ws bs c h
          · rcases List.mem_cons.mp h with h | h
            · rw [h]
              revert hwsb
              cases isWs (61 ^^^ (1 <<< bit)) <;> simp
            · rw [List.mem_singleton.mp h]
              exact isWs_61
        have hsplit : b64chars bs ++ [61 ^^^ (1 <<< bit), 61]
            = (b64chars bs ++ [61 ^^^ (1 <<< bit)]) ++ [61] := by
          simp
        have hs2 : preprocess (flipAt (b64encode bs) pos bit)
            = b64chars bs ++ [61 ^^^ (1 <<< bit)] := by
          unfold preprocess
          rw [hfil, if_pos (by simp only [List.length_append, List.length_cons,
            List.length_singleton, List.length_nil]; omega)]
          rw [hsplit]
          exact stripPads_one_pad_of_last_ne _ (by
            rw [List.getLast?_concat]
            intro hcon
            exact hc61 ((Option.some.injEq _ _).mp hcon))
        by_cases hval : (decChar (61 ^^^ (1 <<< bit))).isSome
        · right; right
          exact ⟨hs2, hval, by omega⟩
        · left
          exact ⟨61 ^^^ (1 <<< bit), by rw [hs2]; simp,
            Option.not_isSome_iff_eq_none.mp hval⟩
    · -- second padding character flipped
      have hj1 : pos - (b64chars bs).length = 1 := by omega
      have hflip2 : flipAt (b64encode bs) pos bit
          = b64chars bs ++ [61, 61 ^^^ (1 <<< bit)] := by
        rw [hflip, hrep2, hj1]
        rfl
      left
      by_cases hwsb : isWs (61 ^^^ (1 <<< bit)) = true
      · have hfil : (flipAt (b64encode bs) pos bit).filter (fun c => !(isWs c))
            = b64chars bs ++ [61] := by
          rw [hflip2, List.filter_append, hfilchars]
          have : ([61, 61 ^^^ (1 <<< bit)] : List Nat).filter (fun c => !(isWs c)) = [61] := by
            simp [hwsb, isWs_61]
          rw [this]
        have hs2 : preprocess (flipAt (b64encode bs) pos bit) = b64chars bs ++ [61] := by
          unfold preprocess
          rw [hfil, if_neg (by simp only [List.length_append, List.length_singleton]; omega)]
        exact ⟨61, by rw [hs2]; simp, decChar_61⟩
      · have hfil : (flipAt (b64encode bs) pos bit).filter (fun c => !(isWs c))
            = b64chars bs ++ [61, 61 ^^^ (1 <<< bit)] := by
          rw [hflip2]
          apply filter_not_ws_eq_self
          intro c hc
          rcases List.mem_append.mp hc with h | h
          · exact b64chars_not_ws bs c h
          · rcases List.mem_cons.mp h with h | h
            · rw [h]; exact isWs_61
            · rw [List.mem_singleton.mp h]
              revert hwsb
              cases isWs (61 ^^^ (1 <<< bit)) <;> simp
        have hlast : (b64chars bs ++ [61, 61 ^^^ (1 <<< bit)]).getLast? ≠ some 61 := by
          have hsplit : b64chars bs ++ [61, 61 ^^^ (1 <<< bit)]
              = (b64chars bs ++ [61]) ++ [61 ^^^ (1 <<< bit)] := by
            simp
          rw [hsplit, List.getLast?_concat]
          intro hcon
          exact hc61 ((Option.some.injEq _ _).mp hcon)
        have hs2 : preprocess (flipAt (b64encode bs) pos bit)
            = b64chars bs ++ [61, 61 ^^^ (1 <<< bit)] := by
          unfold preprocess
          rw [hfil, if_pos (by simp only [List.length_append, List.length_cons,
            List.length_singleton, List.length_nil]; omega)]
          exact stripPads_last_ne _ hlast
        exact ⟨61, by rw [hs2]; simp, decChar_61⟩

/-! ### A change confined to one sextet touches at most two adjacent bytes -/

theorem bitsToBytes_getD (L : List Bool) (j : Nat) (h : 8 * (j + 1) ≤ L.length) :
    (bitsToBytes L).getD j 0 = bitsVal ((L.drop (8 * j)).take 8) := by
  induction j generalizing L with
  | zero =>
    rw [bitsToBytes_eq, if_neg (by omega)]
    simp
  | succ n ih =>
    rw [bitsToBytes_eq, if_neg (by omega)]
    have hstep : (bitsVal (L.take 8) :: bitsToBytes (L.drop 8)).getD (n + 1) 0
        = (bitsToBytes (L.drop 8)).getD n 0 := rfl
    have hdd : (L.drop 8).drop (8 * n) = L.drop (8 * (n + 1)) := by
      rw [List.drop_drop]
      congr 1
      omega
    rw [hstep, ih (L.drop 8) (by simp only [List.length_drop]; omega), hdd]

theorem bytes_window (L L' : List Bool) (a : Nat) (hlen : L.length = L'.length)
    (hag : ∀ i, i < a ∨ a + 6 ≤ i → L.getD i false = L'.getD i false) :
    ∀ j, j ≠ a / 8 → j ≠ a / 8 + 1 →
      (bitsToBytes L).getD j 0 = (bitsToBytes L').getD j 0 := by
  intro j hj1 hj2
  by_cases hrange : 8 * (j + 1) ≤ L.length
  · rw [bitsToBytes_getD L j hrange, bitsToBytes_getD L' j (by omega)]
    congr 1
    have hlt : ∀ i, i < 8 → (8 * j + i < a ∨ a + 6 ≤ 8 * j + i) := by
      intro i hi
      omega
    apply List.ext_getElem
    · simp only [List.length_take, List.length_drop]
      omega
    · intro i h1 h2
      have hi8 : i < 8 := by
        simp only [List.length_take, List.length_drop] at h1
        omega
      rw [List.getElem_take, List.getElem_drop, List.getElem_take, List.getElem_drop]
      have hidx : 8 * j + i < L.length := by omega
      have hcast : ∀ M : List Bool, ∀ hh : 8 * j + i < M.length,
          M[8 * j + i] = M.getD (8 * j + i) false := by
        intro M hh
        rw [List.getD_eq_getElem M false hh]
      rw [hcast L (by omega), hcast L' (by omega)]
      exact hag (8 * j + i) (hlt i hi8)
  · rw [List.getD_eq_default _ _ (by rw [length_bitsToBytes]; omega),
      List.getD_eq_default _ _ (by rw [length_bitsToBytes]; omega)]

/-- Decoding the character list with one character replaced by another
alphabet character yields bytes of the same length that agree with the
original bytes outside a two-byte window. -/
theorem decodeChars_flip_window (bs : List Nat) (hb : ∀ b ∈ bs, b < 256)
    (pos : Nat) (c' : Nat) (hpos : pos < (b64chars bs).length) (bs' : List Nat)
    (hdec : decodeChars ((b64chars bs).take pos ++ c' :: (b64chars bs).drop (pos + 1))
      = some bs') :
    bs'.length = bs.length ∧
      ∀ j, j ≠ 6 * pos / 8 → j ≠ 6 * pos / 8 + 1 → bs'.getD j 0 = bs.getD j 0 := by
  have hXdecomp : (b64chars bs).take pos ++ (b64chars bs)[pos] :: (b64chars bs).drop (pos + 1)
      = b64chars bs := by
    conv_rhs => rw [← List.take_append_drop pos (b64chars bs)]
    rw [List.drop_eq_getElem_cons hpos]
  -- extract the byte string computed by the decoder
  unfold decodeChars at hdec
  split_ifs at hdec with h1 h2
  have hbs' : bs' = bitsToBytes
      (((b64chars bs).take pos ++ c' :: (b64chars bs).drop (pos + 1)).flatMap
        (fun c => sextetBits ((decChar c).getD 0))) :=
    (Option.some.injEq _ _).mp hdec.symm
  -- the original byte string arises the same way from the unmodified chars
  have hB : (b64chars bs).flatMap (fun c => sextetBits ((decChar c).getD 0))
      = bytesToBits bs ++ List.replicate ((6 - 8 * bs.length % 6) % 6) false :=
    b64chars_decode_bits bs
  have hbs : bs = bitsToBytes
      ((b64chars bs).flatMap (fun c => sextetBits ((decChar c).getD 0))) := by
    rw [hB, bitsToBytes_bytesToBits bs _ hb (by simp only [List.length_replicate]; omega)]
  -- both bit streams decompose around position 6*pos
  have hflatX : ((b64chars bs).take pos ++ c' :: (b64chars bs).drop (pos + 1)).flatMap
        (fun c => sextetBits ((decChar c).getD 0))
      = ((b64chars bs).take pos).flatMap (fun c => sextetBits ((decChar c).getD 0))
        ++ (sextetBits ((decChar c').getD 0)
            ++ ((b64chars bs).drop (pos + 1)).flatMap
                (fun c => sextetBits ((decChar c).getD 0))) := by
    rw [List.flatMap_append, List.flatMap_cons]
  have hflatB : (b64chars bs).flatMap (fun c => sextetBits ((decChar c).getD 0))
      = ((b64chars bs).take pos).flatMap (fun c => sextetBits ((decChar c).getD 0))
        ++ (sextetBits ((decChar ((b64chars bs)[pos])).getD 0)
            ++ ((b64chars bs).drop (pos + 1)).flatMap
                (fun c => sextetBits ((decChar c).getD 0))) := by
    conv_lhs => rw [← hXdecomp]
    rw [List.flatMap_append, List.flatMap_cons]
  have htakelen : (((b64chars bs).take pos).flatMap
      (fun c => sextetBits ((decChar c).getD 0))).length = 6 * pos := by
    rw [length_flatMap_sextets, List.length_take]
    omega
  have hsex6 : ∀ v : Nat, (sextetBits v).length = 6 := by
    intro v
    simp [sextetBits]
  -- lengths agree
  have hlenX : (((b64chars bs).take pos ++ c' :: (b64chars bs).drop (pos + 1)).flatMap
      (fun c => sextetBits ((decChar c).getD 0))).length
      = ((b64chars bs).flatMap (fun c => sextetBits ((decChar c).getD 0))).length := by
    rw [length_flatMap_sextets, length_flatMap_sextets]
    simp only [List.length_append, List.length_take, List.length_cons, List.length_drop]
    omega
  constructor
  · rw [hbs', length_bitsToBytes]
    conv_rhs => rw [hbs]
    rw [length_bitsToBytes, hlenX]
  · intro j hj1 hj2
    rw [hbs']
    conv_rhs => rw [hbs]
    apply bytes_window _ _ (6 * pos) hlenX _ j hj1 hj2
    intro i hi
    rw [hflatX, hflatB]
    rcases hi with hi | hi
    · rw [List.getD_append _ _ _ _ (by rw [htakelen]; omega),
        List.getD_append _ _ _ _ (by rw [htakelen]; omega)]
    · have h1l : (((b64chars bs).take pos).flatMap
          (fun c => sextetBits ((decChar c).getD 0))).length ≤ i := by
        rw [htakelen]
        omega
      rw [List.getD_append_right _ _ _ _ h1l, List.getD_append_right _ _ _ _ h1l, htakelen]
      have h2l : (sextetBits ((decChar c').getD 0)).length ≤ i - 6 * pos := by
        rw [hsex6]
        omega
      have h3l : (sextetBits ((decChar ((b64chars bs)[pos])).getD 0)).length
          ≤ i - 6 * pos := by
        rw [hsex6]
        omega
      rw [List.getD_append_right _ _ _ _ h2l, List.getD_append_right _ _ _ _ h3l,
        hsex6, hsex6]

/-! ### Success of decryption on a two-byte window change forces the
original plaintext -/

theorem getD_parts_mid (A B X : List Nat) (i : Nat) (hA : A.length = 12)
    (hi : i < B.length) : ((A ++ B) ++ X).getD (12 + i) 0 = B.getD i 0 := by
  rw [List.getD_append _ _ _ _ (by simp only [List.length_append, hA]; omega),
    List.getD_append_right _ _ _ _ (by omega)]
  congr 1
  omega

theorem getD_parts_last (A B C D E : List Nat) (i : Nat) (hA : A.length = 12)
    (hC : C.length = 32) (hD : D.length = 12) (hi : i < E.length) :
    (A ++ B ++ (C ++ D ++ E)).getD (56 + B.length + i) 0 = E.getD i 0 := by
  rw [List.getD_append_right _ _ _ _
      (by simp only [List.length_append, hA]; omega)]
  rw [List.getD_append_right _ _ _ _
      (by simp only [List.length_append, hA, hC, hD]; omega)]
  simp only [List.length_append, hA, hC, hD]
  congr 1
  omega

/-- If decryption of bytes that differ from honest cipher bytes only inside
a window of two adjacent positions succeeds under the honest key, the
returned plaintext is the honest plaintext: the plaintext is stored twice
(once as the message, once inside the ideal tag) at distance `44 + |p|`, so
a two-byte window can never alter both copies consistently. -/
theorem window_auth_eq (p key iv : List Nat) (hk : key.length = 32)
    (hiv : iv.length = 12) (bs'' : List Nat) (w : Nat)
    (hlen : bs''.length = (encBytes p key iv).length)
    (hagree : ∀ j, j ≠ w → j ≠ w + 1 → bs''.getD j 0 = (encBytes p key iv).getD j 0)
    (q : List Nat) (hok : decryptBytes bs'' key = .ok q) : q = p := by
  obtain ⟨hge, hpar, hq, hS⟩ := decryptBytes_ok bs'' key q hok
  have hL : bs''.length = 56 + 2 * p.length := by
    rw [hlen, length_encBytes p key iv hk hiv]
  have hl2 : (bs''.length - 56) / 2 = p.length := by omega
  have htake12 : (bs''.take 12).length = 12 := by
    rw [List.length_take]
    omega
  have hqlen : q.length = p.length := by
    rw [hq, hl2, List.length_take, List.length_drop]
    omega
  have hB : encBytes p key iv = iv ++ p ++ (key ++ iv ++ p) := rfl
  -- positions of the two copies of the plaintext
  have hq1 : ∀ i, i < p.length → q.getD i 0 = bs''.getD (12 + i) 0 := by
    intro i hi
    conv_rhs => rw [hS]
    rw [getD_parts_mid _ _ _ i htake12 (by omega)]
  have hq2 : ∀ i, i < p.length → q.getD i 0 = bs''.getD (56 + p.length + i) 0 := by
    intro i hi
    conv_rhs => rw [hS]
    have hgl := getD_parts_last (bs''.take 12) q key (bs''.take 12) q i htake12 hk htake12
      (by omega : i < q.length)
    rw [hqlen] at hgl
    exact hgl.symm
  have hp1 : ∀ i, i < p.length → p.getD i 0 = (encBytes p key iv).getD (12 + i) 0 := by
    intro i hi
    rw [hB, getD_parts_mid _ _ _ i hiv hi]
  have hp2 : ∀ i, i < p.length →
      p.getD i 0 = (encBytes p key iv).getD (56 + p.length + i) 0 := by
    intro i hi
    rw [hB, getD_parts_last iv p key iv p i hiv hk hiv hi]
  apply List.ext_getElem (by omega)
  intro i hi1 hi2
  have hip : i < p.length := by omega
  rw [← List.getD_eq_getElem q 0 hi1, ← List.getD_eq_getElem p 0 hi2]
  by_cases hw : 12 + i ≠ w ∧ 12 + i ≠ w + 1
  · rw [hq1 i hip, hp1 i hip]
    exact hagree (12 + i) hw.1 hw.2
  · have hw2 : 56 + p.length + i ≠ w ∧ 56 + p.length + i ≠ w + 1 := by
      push_neg at hw
      omega
    rw [hq2 i hip, hp2 i hip]
    exact hagree (56 + p.length + i) hw2.1 hw2.2

theorem decryptData_eq_of_decode (blob key c : List Nat)
    (h : forgivingDecode blob = some c) :
    decryptData blob key = decryptBytes c key := by
  unfold decryptData
  rw [h]

theorem decryptData_eq_of_decode_none (blob key : List Nat)
    (h : forgivingDecode blob = none) :
    decryptData blob key = .error .badBase64 := by
  unfold decryptData
  rw [h]

theorem encBytes_bytes_lt (p key iv : List Nat) (hbp : ∀ b ∈ p, b < 256)
    (hbk : ∀ b ∈ key, b < 256) (hbiv : ∀ b ∈ iv, b < 256) :
    ∀ b ∈ encBytes p key iv, b < 256 := by
  intro b hbm
  rw [encBytes] at hbm
  rcases List.mem_append.mp hbm with h | h
  · rcases List.mem_append.mp h with h | h
    · exact hbiv b h
    · exact hbp b h
  · rcases List.mem_append.mp h with h | h
    · rcases List.mem_append.mp h with h | h
      · exact hbk b h
      · exact hbiv b h
    · exact hbp b h

/-- A decode whose character count changed by one produces a byte count of
the wrong parity, which the cipher's length structure rejects. -/
theorem parity_contra (m n l bs2len s2len : Nat)
    (hm : m = (8 * n + 5) / 6) (hn : n = 56 + 2 * l)
    (hb2 : bs2len = 6 * s2len / 8)
    (hge : 56 ≤ bs2len) (hpar : (bs2len - 56) % 2 = 0)
    (hcase : (s2len = m - 1 ∧ (m % 4 = 0 ∨ m % 4 = 3))
           ∨ (s2len = m + 1 ∧ (m % 4 = 2 ∨ m % 4 = 3))) : False := by
  have hmn : 6 * m ≤ 8 * n + 5 ∧ 8 * n + 5 < 6 * m + 6 := by omega
  have hbb : 8 * bs2len ≤ 6 * s2len ∧ 6 * s2len < 8 * bs2len + 8 := by omega
  rcases hcase with ⟨h1, h2⟩ | ⟨h1, h2⟩ <;> omega

/-- Tamper safety of the framed cipher: if decryption of a blob with one
flipped bit succeeds under the original key, the result is exactly the
original plaintext — a flip can never make `decryptData` return altered or
truncated plaintext. -/
theorem decryptData_flip_ok (p key iv : List Nat) (hk : key.length = 32)
    (hiv : iv.length = 12) (hbp : ∀ b ∈ p, b < 256) (hbk : ∀ b ∈ key, b < 256)
    (hbiv : ∀ b ∈ iv, b < 256) (pos bit : Nat) (q : List Nat)
    (hok : decryptData (flipAt (encryptData p key iv) pos bit) key = .ok q) :
    q = p := by
  have hb := encBytes_bytes_lt p key iv hbp hbk hbiv
  have hn : (encBytes p key iv).length = 56 + 2 * p.length := length_encBytes p key iv hk hiv
  unfold encryptData at hok
  by_cases hpos : pos < (b64encode (encBytes p key iv)).length
  · cases hfd : forgivingDecode (flipAt (b64encode (encBytes p key iv)) pos bit) with
    | none =>
      rw [decryptData_eq_of_decode_none _ _ hfd] at hok
      exact absurd hok (by simp)
    | some bs'' =>
      rw [decryptData_eq_of_decode _ _ _ hfd] at hok
      have hfd' : decodeChars (preprocess (flipAt (b64encode (encBytes p key iv)) pos bit))
          = some bs'' := hfd
      have hm := length_b64chars (encBytes p key iv)
      have hm4 := length_b64chars_mod (encBytes p key iv)
      by_cases hchar : pos < (b64chars (encBytes p key iv)).length
      · by_cases hws : isWs ((b64chars (encBytes p key iv)).getD pos 0 ^^^ (1 <<< bit)) = true
        · rw [preprocess_flip_char_ws _ _ _ hchar hws] at hfd'
          by_cases hpad0 : padCount (b64chars (encBytes p key iv)).length = 0
          · exfalso
            have hlen'' := decodeChars_some_length _ _ hfd'
            obtain ⟨hge, hpar, -, -⟩ := decryptBytes_ok _ _ _ hok
            have hslen : (((b64chars (encBytes p key iv)).take pos
                ++ (b64chars (encBytes p key iv)).drop (pos + 1))
                ++ List.replicate (padCount (b64chars (encBytes p key iv)).length) 61).length
                = (b64chars (encBytes p key iv)).length - 1 := by
              simp only [List.length_append, List.length_take, List.length_drop,
                List.length_replicate, hpad0]
              omega
            rw [hslen] at hlen''
            have hm40 : (b64chars (encBytes p key iv)).length % 4 = 0 := by
              unfold padCount at hpad0
              omega
            exact parity_contra _ _ p.length _ _ hm hn hlen'' hge hpar
              (Or.inl ⟨rfl, Or.inl hm40⟩)
          · have h61mem : (61 : Nat) ∈ ((b64chars (encBytes p key iv)).take pos
                ++ (b64chars (encBytes p key iv)).drop (pos + 1))
                ++ List.replicate (padCount (b64chars (encBytes p key iv)).length) 61 := by
              apply List.mem_append.mpr
              right
              exact List.mem_replicate.mpr ⟨hpad0, rfl⟩
            rw [decodeChars_none_of_invalid _ 61 h61mem decChar_61] at hfd'
            exact Option.noConfusion hfd'
        · by_cases h61 : (b64chars (encBytes p key iv)).getD pos 0 ^^^ (1 <<< bit) = 61
          · rcases preprocess_flip_char_61 _ _ _ hchar h61 with hmem | ⟨hP, hlast, hple⟩
            · rw [decodeChars_none_of_invalid _ 61 hmem decChar_61] at hfd'
              exact Option.noConfusion hfd'
            · exfalso
              rw [hP] at hfd'
              have hlen'' := decodeChars_some_length _ _ hfd'
              obtain ⟨hge, hpar, -, -⟩ := decryptBytes_ok _ _ _ hok
              have hslen : ((b64chars (encBytes p key iv)).take pos).length
                  = (b64chars (encBytes p key iv)).length - 1 := by
                rw [List.length_take]
                omega
              rw [hslen] at hlen''
              have hm403 : (b64chars (encBytes p key iv)).length % 4 = 0
                  ∨ (b64chars (encBytes p key iv)).length % 4 = 3 := by
                unfold padCount at hple
                omega
              exact parity_contra _ _ p.length _ _ hm hn hlen'' hge hpar
                (Or.inl ⟨rfl, hm403⟩)
          · have hwsf : isWs ((b64chars (encBytes p key iv)).getD pos 0 ^^^ (1 <<< bit))
                = false := by
              revert hws
              cases isWs ((b64chars (encBytes p key iv)).getD pos 0 ^^^ (1 <<< bit)) <;> simp
            have hP := preprocess_flip_char _ pos bit hchar hwsf h61
            by_cases hval : (decChar ((b64chars (encBytes p key iv)).getD pos 0
                ^^^ (1 <<< bit))).isSome
            · rw [hP] at hfd'
              have hwin := decodeChars_flip_window _ hb pos _ hchar _ hfd'
              exact window_auth_eq p key iv hk hiv bs'' (6 * pos / 8)
                (hwin.1.trans rfl) hwin.2 q hok
            · rw [hP] at hfd'
              have hcmem : ((b64chars (encBytes p key iv)).getD pos 0 ^^^ (1 <<< bit))
                  ∈ (b64chars (encBytes p key iv)).take pos
                    ++ ((b64chars (encBytes p key iv)).getD pos 0 ^^^ (1 <<< bit))
                      :: (b64chars (encBytes p key iv)).drop (pos + 1) := by
                simp
              rw [decodeChars_none_of_invalid _ _ hcmem
                (Option.not_isSome_iff_eq_none.mp hval)] at hfd'
              exact Option.noConfusion hfd'
      · rcases preprocess_flip_pad _ pos bit (Nat.le_of_not_lt hchar) hpos with
          ⟨x, hx, hxinv⟩ | hPB | ⟨hPC, hvalC, hpadne⟩
        · rw [decodeChars_none_of_invalid _ x hx hxinv] at hfd'
          exact Option.noConfusion hfd'
        · rw [hPB, decodeChars_b64chars _ hb] at hfd'
          have hbseq : encBytes p key iv = bs'' := (Option.some.injEq _ _).mp hfd'
          rw [← hbseq, decryptBytes_encBytes p key iv hk hiv] at hok
          exact ((Except.ok.injEq _ _).mp hok).symm
        · exfalso
          rw [hPC] at hfd'
          have hlen'' := decodeChars_some_length _ _ hfd'
          obtain ⟨hge, hpar, -, -⟩ := decryptBytes_ok _ _ _ hok
          have hslen : ((b64chars (encBytes p key iv))
              ++ [61 ^^^ (1 <<< bit)]).length
              = (b64chars (encBytes p key iv)).length + 1 := by
            simp
          rw [hslen] at hlen''
          have hm423 : (b64chars (encBytes p key iv)).length % 4 = 2
              ∨ (b64chars (encBytes p key iv)).length % 4 = 3 := by
            unfold padCount at hpadne
            omega
          exact parity_contra _ _ p.length _ _ hm hn hlen'' hge hpar
            (Or.inr ⟨rfl, hm423⟩)
  · rw [flipAt_oob _ _ _ (Nat.le_of_not_lt hpos)] at hok
    have hfd : forgivingDecode (b64encode (encBytes p key iv)) = some (encBytes p key iv) :=
      forgivingDecode_b64encode _ hb
    rw [decryptData_eq_of_decode _ _ _ hfd, decryptBytes_encBytes p key iv hk hiv] at hok
    exact ((Except.ok.injEq _ _).mp hok).symm

/-- Round trip of the envelope cipher at the data level. -/
theorem decryptData_encryptData (p key iv : List Nat) (hk : key.length = 32)
    (hiv : iv.length = 12) (hbp : ∀ b ∈ p, b < 256) (hbk : ∀ b ∈ key, b < 256)
    (hbiv : ∀ b ∈ iv, b < 256) :
    decryptData (encryptData p key iv) key = .ok p := by
  have hb := encBytes_bytes_lt p key iv hbp hbk hbiv
  have hfd : forgivingDecode (encryptData p key iv) = some (encBytes p key iv) :=
    forgivingDecode_b64encode _ hb
  rw [decryptData_eq_of_decode _ _ _ hfd, decryptBytes_encBytes p key iv hk hiv]

/-- Wrong-key rejection of the envelope cipher at the data level. -/
theorem decryptData_wrong_key (p key key2 iv : List Nat) (hk : key.length = 32)
    (hne : key ≠ key2) (hiv : iv.length = 12) (hbp : ∀ b ∈ p, b < 256)
    (hbk : ∀ b ∈ key, b < 256) (hbiv : ∀ b ∈ iv, b < 256) :
    decryptData (encryptData p key iv) key2 = .error .authFailed := by
  have hb := encBytes_bytes_lt p key iv hbp hbk hbiv
  have hfd : forgivingDecode (encryptData p key iv) = some (encBytes p key iv) :=
    forgivingDecode_b64encode _ hb
  rw [decryptData_eq_of_decode _ _ _ hfd, decryptBytes_wrong_key p key key2 iv hk hne hiv]

/-! ## Secret derivation (`deriveKeyFromMnemonic`, `deriveVaultId`)

JavaScript string operations are modelled on the underlying character
lists.  The bip39 library's wordlist-plus-checksum predicate and the
platform hash (`crypto.subtle.digest`) and key stretching
(`bip39.mnemonicToSeed`) are external collaborators, taken as explicit
function parameters. -/

/-- Split a character list at whitespace runs, dropping empty fragments
(`acc` holds the current word reversed). -/
def splitWsAux : List Char → List Char → List (List Char)
  | [], acc => if acc = [] then [] else [acc.reverse]
  | c :: rest, acc =>
    if c.isWhitespace then
      if acc = [] then splitWsAux rest [] else acc.reverse :: splitWsAux rest []
    else splitWsAux rest (c :: acc)

/-- `mnemonic.trim().toLowerCase().replace(/\s+/g, ' ')` from
`deriveKeyFromMnemonic` / `deriveVaultId`: lower-case, trim, and collapse
every whitespace run to a single space. -/
def normalizeMnemonic (s : String) : String :=
  String.mk (List.intercalate [' '] (splitWsAux (s.data.map Char.toLower) []))

/-- Error raised on a malformed mnemonic (the thrown
`'無効なシードフレーズです'`). -/
inductive DerivErr where
  | invalidMnemonic : DerivErr
deriving DecidableEq

/-- Modelled from the spec: `bip39.validateMnemonic` (external library, not
part of this repository).  Spec §4.1 requires "exactly 12 words satisfying
the checksum scheme"; the word-count check is explicit and the
wordlist-and-checksum predicate on the word sequence is the parameter
`chk`. -/
def validateMnemonic (chk : List String → Bool) (m : String) : Bool :=
  (splitWsAux m.data []).length == 12 && chk ((splitWsAux m.data []).map String.mk)

/-- `deriveKeyFromMnemonic`: normalise, validate, then take the first 32
bytes of the BIP-39 seed of the normalised mnemonic as the AES key
material.  `seedOf` is the external `bip39.mnemonicToSeed`. -/
def deriveKeyFromMnemonic (chk : List String → Bool) (seedOf : String → List Nat)
    (mnemonic : String) : Except DerivErr (List Nat) :=
  if validateMnemonic chk (normalizeMnemonic mnemonic) then
    .ok ((seedOf (normalizeMnemonic mnemonic)).take 32)
  else
    .error .invalidMnemonic

/-- `TextEncoder().encode`: the mnemonic's bytes.  Modelled as the
character code points, which coincides with UTF-8 on the ASCII strings
involved; the bytes only feed the opaque hash parameter. -/
def strBytes (s : String) : List Nat :=
  s.data.map Char.toNat

/-- Two lowercase hex digits of a byte (`b.toString(16).padStart(2, '0')`). -/
def byteToHex (b : Nat) : List Char :=
  [Nat.digitChar (b / 16), Nat.digitChar (b % 16)]

/-- `deriveVaultId`: hex-encode the SHA-256 (external: parameter `hash`) of
the normalised mnemonic and keep the first 16 characters.  Note: unlike
`deriveKeyFromMnemonic` this function performs no validation and never
fails. -/
def deriveVaultId (hash : List Nat → List Nat) (m : String) : String :=
  String.mk ((((hash (strBytes (normalizeMnemonic m))).flatMap byteToHex)).take 16)

/-! ## Store lookup lemmas -/

theorem getItem_setItem_self (s : Store) (k v : String) :
    getItem (setItem s k v) k = some v := by
  unfold setItem
  by_cases hany : s.any (fun kv => kv.1 == k)
  · rw [if_pos hany]
    induction s with
    | nil => simp at hany
    | cons kv rest ih =>
      simp only [List.any_cons, Bool.or_eq_true] at hany
      by_cases hk : kv.1 == k
      · simp only [List.map_cons, if_pos hk]
        unfold getItem
        rw [List.find?_cons_of_pos _ (by simp)]
        rfl
      · have hkf : (kv.1 == k) = false := by
          revert hk
          cases kv.1 == k <;> simp
        simp only [List.map_cons, hkf, Bool.false_eq_true, if_false]
        unfold getItem
        rw [List.find?_cons_of_neg _ (by simp [hkf])]
        have hrest : rest.any (fun kv => kv.1 == k) = true := by
          rcases hany with h | h
          · exact absurd h hk
          · exact h
        exact ih hrest
  · rw [if_neg hany]
    induction s with
    | nil =>
      unfold getItem
      rw [List.nil_append, List.find?_cons_of_pos _ (by simp)]
      rfl
    | cons kv rest ih =>
      simp only [List.any_cons, Bool.or_eq_true, not_or] at hany
      unfold getItem
      rw [List.cons_append, List.find?_cons_of_neg _ (by simpa using hany.1)]
      exact ih hany.2

theorem find?_map_update_ne (s : Store) (k v k' : String) (h : k' ≠ k) :
    (s.map (fun kv => if kv.1 == k then (k, v) else kv)).find? (fun kv => kv.1 == k')
      = s.find? (fun kv => kv.1 == k') := by
  induction s with
  | nil => rfl
  | cons kv rest ih =>
    simp only [List.map_cons]
    by_cases hk : kv.1 == k
    · have hkk : kv.1 = k := by simpa using hk
      rw [if_pos hk, List.find?_cons_of_neg _ (by
          simp
          exact fun hc => h hc.symm),
        List.find?_cons_of_neg _ (by
          simp [hkk]
          exact fun hc => h hc.symm)]
      exact ih
    · rw [if_neg hk]
      by_cases hk' : kv.1 == k'
      · rw [List.find?_cons_of_pos _ (by exact hk'), List.find?_cons_of_pos _ (by exact hk')]
      · rw [List.find?_cons_of_neg _ (by exact hk'), List.find?_cons_of_neg _ (by exact hk')]
        exact ih

theorem getItem_setItem_ne (s : Store) (k v k' : String) (h : k' ≠ k) :
    getItem (setItem s k v) k' = getItem s k' := by
  unfold setItem getItem
  by_cases hany : s.any (fun kv => kv.1 == k)
  · rw [if_pos hany, find?_map_update_ne s k v k' h]
  · rw [if_neg hany]
    induction s with
    | nil =>
      simp only [List.nil_append, List.find?]
      have hne : ((k, v).1 == k') = false := by
        simp
        exact fun hc => h hc.symm
      simp [List.find?, hne]
    | cons kv rest ih =>
      simp only [List.any_cons, Bool.or_eq_true, not_or] at hany
      simp only [List.cons_append, List.find?]
      by_cases hk' : kv.1 == k'
      · simp [hk']
      · have hf : (kv.1 == k') = false := by
          revert hk'
          cases kv.1 == k' <;> simp
        simp only [hf]
        exact ih (by simp [hany.2])

theorem getItem_removeItem_self (s : Store) (k : String) :
    getItem (removeItem s k) k = none := by
  unfold removeItem getItem
  have hnone : (List.filter (fun kv => kv.1 != k) s).find? (fun kv => kv.1 == k) = none := by
    rw [List.find?_eq_none]
    intro kv hkv
    have hmem := List.of_mem_filter hkv
    simp only [bne_iff_ne, ne_eq] at hmem
    simp [hmem]
  rw [hnone]
  rfl

theorem getItem_removeItem_ne (s : Store) (k k' : String) (h : k' ≠ k) :
    getItem (removeItem s k) k' = getItem s k' := by
  unfold removeItem getItem
  induction s with
  | nil => rfl
  | cons kv rest ih =>
    by_cases hk : kv.1 == k
    · have hkk : kv.1 = k := by simpa using hk
      have hfil : (kv.1 != k) = false := by simp [hkk]
      rw [List.filter_cons, hfil]
      simp only [Bool.false_eq_true, if_false]
      rw [List.find?_cons_of_neg _ (by
        simp [hkk]
        exact fun hc => h hc.symm)]
      exact ih
    · have hfil : (kv.1 != k) = true := by
        simp
        simpa using hk
      rw [List.filter_cons, hfil]
      simp only [if_true]
      by_cases hk' : kv.1 == k'
      · rw [List.find?_cons_of_pos _ (by exact hk'), List.find?_cons_of_pos _ (by exact hk')]
      · rw [List.find?_cons_of_neg _ (by exact hk'), List.find?_cons_of_neg _ (by exact hk')]
        exact ih

/-! ## Biometric unlock bridge

The WebAuthn platform authenticator is an external collaborator: whether
the platform supports it (`window.PublicKeyCredential`), the credential
minted by `navigator.credentials.create` and the assertion returned by
`navigator.credentials.get` are explicit parameters (`none` stands for a
failed/cancelled call).  Raw credential ids are kept in their base64 string
form, as the source stores them. -/

/-- The failure messages thrown by the bridge, as typed errors. -/
inductive BioError where
  | unsupported : BioError
  | credentialCreationFailed : BioError
  | noEligibleUser : BioError
  | assertionFailed : BioError
  | vaultNotFound : BioError
  | mnemonicMissing : BioError
  | unknownCredential : BioError
deriving DecidableEq

/-- The retryable "no match / cancelled" class of the spec's failure
taxonomy (§4.4), as opposed to `unsupported`, which is a hard capability
failure. -/
def isNoMatchFailure : BioError → Bool
  | .noEligibleUser => true
  | .assertionFailed => true
  | .vaultNotFound => true
  | .mnemonicMissing => true
  | .unknownCredential => true
  | _ => false

/-- `key.startsWith(p)` on character lists. -/
def strHasPrefix (s p : String) : Bool :=
  p.data.isPrefixOf s.data

/-- `key.replace('biometric_cred_', '')` for keys that start with that
prefix: drop its 15 characters. -/
def stripCredKey (s : String) : String :=
  String.mk (s.data.drop 15)

/-- `registerBiometric` from `src/src/lib/encryption.ts`.  `supported` is
`window.PublicKeyCredential` being present; `credential` is the rawId
(base64) of the credential minted by the platform authenticator, `none` if
creation failed.  On success the credential id and — verbatim, with no
wrapping — the mnemonic are written to the store. -/
def registerBiometric (supported : Bool) (credential : Option String)
    (mnemonic vaultId : String) (displayName : Option String) (store : Store) :
    Except BioError Store :=
  if !supported then .error .unsupported
  else
    match credential with
    | none => .error .credentialCreationFailed
    | some rawId =>
      .ok (setItem (setItem store ("biometric_cred_" ++ vaultId) rawId)
        ("biometric_data_" ++ vaultId) mnemonic)

/-- `authenticateDiscoverable`: scan every `biometric_cred_*` key, in
store order, for one whose value matches the asserted credential and whose
vault still has stored mnemonic data (the source's loop skips entries with
missing data and keeps scanning). -/
def authenticateDiscoverable (assertion : Option String) (store : Store) :
    Except BioError (String × String) :=
  match assertion with
  | none => .error .assertionFailed
  | some rawId =>
    match store.find? (fun kv => strHasPrefix kv.1 "biometric_cred_" && kv.2 == rawId
        && (getItem store ("biometric_data_" ++ stripCredKey kv.1)).isSome) with
    | some kv =>
      match getItem store ("biometric_data_" ++ stripCredKey kv.1) with
      | some m => .ok (m, stripCredKey kv.1)
      | none => .error .unknownCredential
    | none => .error .unknownCredential

/-- `authenticateBiometric`.  The returned Boolean records whether the
platform authenticator was invoked (`navigator.credentials.get` reached). -/
def authenticateBiometric (vaultIds : List String) (assertion : Option String)
    (store : Store) : (Except BioError (String × String)) × Bool :=
  if vaultIds.isEmpty then (authenticateDiscoverable assertion store, true)
  else
    if (vaultIds.filterMap (fun id => getItem store ("biometric_cred_" ++ id))).isEmpty then
      (.error .noEligibleUser, false)
    else
      match assertion with
      | none => (.error .assertionFailed, true)
      | some rawId =>
        match vaultIds.find? (fun id =>
            getItem store ("biometric_cred_" ++ id) == some rawId) with
        | none => (.error .vaultNotFound, true)
        | some vid =>
          match getItem store ("biometric_data_" ++ vid) with
          | some m => (.ok (m, vid), true)
          | none => (.error .mnemonicMissing, true)

/-! ## Vault registry (`src/src/App.tsx`)

The profile registry is the parsed contents of the
`neural_db_profiles` key; we model it as a first-class list next to the
rest of the store (its JSON serialisation is a transport detail). -/

/-- `UserProfile` from `App.tsx`; `hasBiometric` is the field added
dynamically by `handleRegisterBiometric`, absent (`false`) on creation. -/
structure UserProfile where
  vaultId : String
  name : String
  lastActive : String
  hasBiometric : Bool := false
deriving DecidableEq

/-- `candidateName i`: the i-th candidate display name, all distinct. -/
def candidateName (i : Nat) : String :=
  "user-" ++ String.mk (List.replicate i 'x')

/-- Modelled from the spec: `generateUniqueName` (src/lib/naming.ts is not
among the provided sources; only its call site in `App.tsx` is).  Spec
§4.3: "auto-generates a unique display name (collision-checked against
existing names)".  Candidates are probed in order until one misses the
existing names; by pigeonhole one of the first `n + 1` always does. -/
def generateUniqueName (existing : List String) : String :=
  match (List.range (existing.length + 1)).find?
      (fun i => !(existing.contains (candidateName i))) with
  | some i => candidateName i
  | none => ""

/-- The unlock-success handler's profile update (`App.tsx`, the
`setProfiles` block): refresh `lastActive` when the identity is known,
otherwise append a fresh record with a generated name. -/
def upsertProfileOnUnlock (profiles : List UserProfile) (vaultId now : String) :
    List UserProfile :=
  match profiles.find? (fun p => p.vaultId == vaultId) with
  | some _ =>
    profiles.map (fun p => if p.vaultId == vaultId then { p with lastActive := now } else p)
  | none =>
    profiles ++ [⟨vaultId, generateUniqueName (profiles.map (·.name)), now, false⟩]

/-- `handleDeleteVault` from `App.tsx`: after the two confirmation steps,
remove the vault blob and the per-vault API keys from the store and the
profile entry from the registry.  (Note what it does **not** remove.) -/
def handleDeleteVault (vaultId : Option String) (confirm1 : Bool)
    (confirm2 : Option String) (profiles : List UserProfile) (store : Store) :
    List UserProfile × Store :=
  match vaultId with
  | none => (profiles, store)
  | some vid =>
    if !confirm1 then (profiles, store)
    else if confirm2 ≠ some "DELETE" then (profiles, store)
    else
      (profiles.filter (fun p => p.vaultId != vid),
       removeItem (removeItem store ("neural_db_vault_" ++ vid))
         ("neural_db_api_keys_" ++ vid))

/-- `handleRenameProfile` from `App.tsx` (rename is the distinct explicit
operation the spec contrasts with the upsert). -/
def handleRenameProfile (vaultId : Option String) (newName : String)
    (profiles : List UserProfile) : List UserProfile :=
  match vaultId with
  | none => profiles
  | some vid =>
    if String.mk (newName.data.filter (fun c => !(c.isWhitespace))) = "" then profiles
    else profiles.map (fun p => if p.vaultId == vid then { p with name := newName } else p)

/-- The generated display name never collides with an existing one. -/
theorem generateUniqueName_not_mem (existing : List String) :
    generateUniqueName existing ∉ existing := by
  unfold generateUniqueName
  cases hf : (List.range (existing.length + 1)).find?
      (fun i => !(existing.contains (candidateName i))) with
  | some i =>
    have hp := List.find?_some hf
    simp only [Bool.not_eq_eq_eq_not, Bool.not_true] at hp
    intro hmem
    rw [List.contains_eq_any_beq] at hp
    have : existing.any (fun x => candidateName i == x) = true := by
      rw [List.any_eq_true]
      exact ⟨candidateName i, hmem, by simp⟩
    rw [this] at hp
    exact Bool.noConfusion hp
  | none =>
    exfalso
    have hall : ∀ i ∈ List.range (existing.length + 1),
        existing.contains (candidateName i) = true := by
      intro i hi
      have := List.find?_eq_none.mp hf i hi
      revert this
      cases existing.contains (candidateName i) <;> simp
    have hinj : Function.Injective candidateName := by
      intro a b hab
      have : (candidateName a).length = (candidateName b).length := by rw [hab]
      simp only [candidateName, String.length_append] at this
      simpa [String.length, List.length_replicate] using this
    have hsub : (List.range (existing.length + 1)).map candidateName ⊆ existing := by
      intro x hx
      rcases List.mem_map.mp hx with ⟨i, hi, rfl⟩
      have := hall i hi
      rw [List.contains_eq_any_beq, List.any_eq_true] at this
      rcases this with ⟨y, hy, hxy⟩
      have : candidateName i = y := by simpa using hxy
      rw [this]
      exact hy
    have hnodup : ((List.range (existing.length + 1)).map candidateName).Nodup :=
      (List.nodup_range _).map hinj
    have := (hnodup.subperm hsub).length_le
    simp only [List.length_map, List.length_range] at this
    omega

/-! ## Semantic ranker (`filteredNotes` in `src/src/App.tsx`)

Embedding vectors are numeric arrays from the external embedding service;
we model the numbers as rationals (exact arithmetic idealisation of the
JavaScript floats). -/

/-- `Note` from `App.tsx`. -/
structure Note where
  id : String
  title : String
  text : String
  summary : Option String
  vector : Option (List ℚ)
  fileData : Option String
  fileName : Option String
  fileType : Option String
  tags : Option (List String)
  createdAt : String
  updatedAt : String
deriving DecidableEq

/-- A note with the `score` field attached by the ranker (`null` in the
keyword branch). -/
structure ScoredNote where
  note : Note
  score : Option ℚ
deriving DecidableEq

/-- Dot product over the common prefix of the two vectors. -/
def dotP (a b : List ℚ) : ℚ :=
  (List.zipWith (fun x y => x * y) a b).sum

/-- Modelled from the spec: `calculateCosineSimilarity` (src/lib/utils.ts
is not among the provided sources; only its call sites are).  Spec §4.5:
"dot(a,b) / (‖a‖ · ‖b‖); define result as 0 when either vector has zero
magnitude (no NaN propagation)".  The square root is the platform's
`Math.sqrt`, taken as the parameter `sqrt`. -/
def calculateCosineSimilarity (sqrt : ℚ → ℚ) (a b : List ℚ) : ℚ :=
  if dotP a a = 0 ∨ dotP b b = 0 then 0
  else dotP a b / (sqrt (dotP a a) * sqrt (dotP b b))

/-- The tag pre-filter of `filteredNotes`: with tags selected, keep notes
whose tag set contains every selected tag. -/
def tagFilter (notes : List Note) (selectedTags : List String) : List Note :=
  if selectedTags.isEmpty then notes
  else notes.filter (fun n => selectedTags.all (fun t => (n.tags.getD []).contains t))

/-- The score attached to a note in the vector branch: cosine similarity,
or exactly 0 for a missing vector. -/
def scoreNote (sqrt : ℚ → ℚ) (queryVector : List ℚ) (n : Note) : ScoredNote :=
  ⟨n, some (match n.vector with
    | some v => calculateCosineSimilarity sqrt queryVector v
    | none => 0)⟩

/-- Case-insensitive substring test (`String.prototype.includes` after
`toLowerCase`), on character lists. -/
def containsSub (s q : List Char) : Bool :=
  (List.range (s.length + 1)).any (fun i => q.isPrefixOf (s.drop i))

/-- The keyword match of `filteredNotes`: query against title, body and
summary, all lower-cased. -/
def keywordMatch (query : List Char) (n : Note) : Bool :=
  containsSub (n.title.data.map Char.toLower) query
  || containsSub (n.text.data.map Char.toLower) query
  || (match n.summary with
      | some s => containsSub (s.data.map Char.toLower) query
      | none => false)

/-- `String.prototype.trim` on character lists. -/
def trimChars (l : List Char) : List Char :=
  ((l.dropWhile Char.isWhitespace).reverse.dropWhile Char.isWhitespace).reverse

/-- `filteredNotes` from `App.tsx`: tag pre-filter, then either cosine
scoring and a stable sort by descending score (the comparator
`(a, b) => (b.score ?? 0) - (a.score ?? 0)`; `Array.prototype.sort` is
stable), or case-insensitive keyword filtering, or the identity. -/
def filteredNotes (sqrt : ℚ → ℚ) (notes : List Note) (selectedTags : List String)
    (searchQuery : String) (searchVector : Option (List ℚ)) : List ScoredNote :=
  match searchVector with
  | some qv =>
    ((tagFilter notes selectedTags).map (scoreNote sqrt qv)).mergeSort
      (fun a b => decide (b.score.getD 0 ≤ a.score.getD 0))
  | none =>
    if trimChars (searchQuery.data.map Char.toLower) ≠ [] then
      ((tagFilter notes selectedTags).filter
        (keywordMatch (trimChars (searchQuery.data.map Char.toLower)))).map
        (fun n => ⟨n, none⟩)
    else (tagFilter notes selectedTags).map (fun n => ⟨n, none⟩)

/-! ## Note import (`handleImportNotes` in `src/src/App.tsx`)

The parsed JSON payload and the in-memory note objects are dynamic
JavaScript values, modelled by `JValue`.  `JSON.parse` itself is the
platform's; its result (or `none` for a parse error) is the input. -/

/-- A JSON value. -/
inductive JValue where
  | jnull : JValue
  | jbool : Bool → JValue
  | jnum : ℚ → JValue
  | jstr : String → JValue
  | jarr : List JValue → JValue
  | jobj : List (String × JValue) → JValue

/-- JavaScript truthiness of a `JValue`. -/
def truthy : JValue → Bool
  | .jnull => false
  | .jbool b => b
  | .jnum q => !(q == 0)
  | .jstr s => !(s == "")
  | .jarr _ => true
  | .jobj _ => true

/-- Property access `v[name]` on an object; `none` is `undefined`. -/
def getField : JValue → String → Option JValue
  | .jobj fields, name => (fields.find? (fun f => f.1 == name)).map (·.2)
  | _, _ => none

/-- `n.id` truthiness (`undefined`, hence falsy, on non-objects). -/
def fieldTruthy (v : JValue) (name : String) : Bool :=
  match getField v name with
  | some x => truthy x
  | none => false

/-- `n.id && n.text` for one element; `none` models the `TypeError` thrown
by property access on `null`, which the surrounding `catch` turns into a
parse error. -/
def validElem : JValue → Option Bool
  | .jnull => none
  | v => some (fieldTruthy v "id" && fieldTruthy v "text")

/-- `importedData.every((n) => n.id && n.text)` with JavaScript's
short-circuit order: a falsy element is reported before a later `null`
can throw. -/
def checkAll : List JValue → Option Bool
  | [] => some true
  | v :: rest =>
    match validElem v with
    | none => none
    | some false => some false
    | some true => checkAll rest

/-- The two error messages `handleImportNotes` can set. -/
inductive ImportError where
  | parseFailed : ImportError
  | invalidStructure : ImportError
deriving DecidableEq

/-- Identity key for `Set.has` (SameValueZero): primitive ids compare by
value; objects and arrays are fresh references after `JSON.parse` and
never equal stored ones, so they yield no key. -/
inductive IdKey where
  | str : String → IdKey
  | num : ℚ → IdKey
  | boolean : Bool → IdKey
deriving DecidableEq

/-- The id key of a parsed value, if it can compare by value. -/
def idKey : JValue → Option IdKey
  | .jstr s => some (.str s)
  | .jnum q => some (.num q)
  | .jbool b => some (.boolean b)
  | _ => none

/-- The id key of a note object. -/
def importIdKey (n : JValue) : Option IdKey :=
  (getField n "id").bind idKey

/-- `handleImportNotes` from `App.tsx`: reject anything that is not an
array whose every element has truthy `id` and `text`; otherwise prepend
the imported elements whose id is not already present.  Returns the new
collection and the error set, if any. -/
def handleImportNotes (parsed : Option JValue) (prev : List JValue) :
    List JValue × Option ImportError :=
  match parsed with
  | none => (prev, some .parseFailed)
  | some payload =>
    match payload with
    | .jarr elems =>
      match checkAll elems with
      | none => (prev, some .parseFailed)
      | some false => (prev, some .invalidStructure)
      | some true =>
        ((elems.filter (fun n =>
            match importIdKey n with
            | some k => !((prev.filterMap importIdKey).contains k)
            | none => true)) ++ prev, none)
    | _ => (prev, some .invalidStructure)

/-! ## Supporting lemmas for the claims -/

theorem scoreComparator_trans (a b c : ScoredNote)
    (h1 : decide (b.score.getD 0 ≤ a.score.getD 0) = true)
    (h2 : decide (c.score.getD 0 ≤ b.score.getD 0) = true) :
    decide (c.score.getD 0 ≤ a.score.getD 0) = true := by
  rw [decide_eq_true_eq] at *
  exact le_trans h2 h1

theorem scoreComparator_total (a b : ScoredNote) :
    (decide (b.score.getD 0 ≤ a.score.getD 0)
      || decide (a.score.getD 0 ≤ b.score.getD 0)) = true := by
  rcases le_total (b.score.getD 0) (a.score.getD 0) with h | h
  · simp [h]
  · simp [h]

theorem contains_filterMap_importIdKey (prev : List JValue) (k : IdKey) :
    (prev.filterMap importIdKey).contains k
      = prev.any (fun m => importIdKey m == some k) := by
  induction prev with
  | nil => rfl
  | cons m rest ih =>
    cases h : importIdKey m with
    | none =>
      rw [List.filterMap_cons_none h, List.any_cons, h, ih]
      simp
    | some k' =>
      rw [List.filterMap_cons_some h, List.any_cons, h, List.contains_cons, ih]
      congr 1
      rcases eq_or_ne k' k with he | hne
      · subst he
        simp
      · have h1 : (k == k') = false := by simp [Ne.symm hne]
        have h2 : ((some k' : Option IdKey) == some k) = false := by simp [hne]
        rw [h1, h2]

theorem validElem_true {v : JValue} (h : validElem v = some true) :
    fieldTruthy v "id" = true ∧ fieldTruthy v "text" = true := by
  cases v <;> simp [validElem] at h <;> exact h

theorem checkAll_true_forall (elems : List JValue) (h : checkAll elems = some true) :
    ∀ v ∈ elems, fieldTruthy v "id" = true ∧ fieldTruthy v "text" = true := by
  induction elems with
  | nil => simp
  | cons v rest ih =>
    intro w hw
    unfold checkAll at h
    cases hv : validElem v with
    | none =>
      rw [hv] at h
      exact Option.noConfusion h
    | some b =>
      rw [hv] at h
      cases b with
      | false => simp at h
      | true =>
        rcases List.mem_cons.mp hw with hwv | hwr
        · subst hwv
          exact validElem_true hv
        · exact ih h w hwr

deriving instance DecidableEq for Except

theorem bio_keys_ne (v : String) :
    ("biometric_data_" ++ v : String) ≠ "biometric_cred_" ++ v := by
  intro h
  have h1 := congrArg String.data h
  simp at h1

theorem length_flatMap_byteToHex (l : List Nat) :
    (l.flatMap byteToHex).length = 2 * l.length := by
  induction l with
  | nil => rfl
  | cons b rest ih =>
    rw [List.flatMap_cons, List.length_append, ih, byteToHex]
    simp
    omega

/-! ## The claims -/

/-- C1 (counterexample): `registerBiometric` persists the mnemonic itself,
verbatim, under the `biometric_data_<vaultId>` storage key; reading that key
back yields the plaintext mnemonic with no authenticator involved, so the
claim that no storage key holds the mnemonic outside a wrapped form is
false. -/
theorem C1_counterexample :
    registerBiometric true (some "cred-1") "alpha bravo charlie" "v1" none []
      = .ok [("biometric_cred_v1", "cred-1"), ("biometric_data_v1", "alpha bravo charlie")]
    ∧ getItem [("biometric_cred_v1", "cred-1"), ("biometric_data_v1", "alpha bravo charlie")]
        "biometric_data_v1" = some "alpha bravo charlie" :=
  ⟨by decide, by decide⟩

/-- C1 (amended): whenever `registerBiometric` succeeds, the durable store
holds the mnemonic in plaintext under `biometric_data_<vaultId>` and the raw
credential id under `biometric_cred_<vaultId>`. -/
theorem C1_claim (supported : Bool) (credential : Option String)
    (mnemonic vaultId : String) (displayName : Option String) (store store' : Store)
    (h : registerBiometric supported credential mnemonic vaultId displayName store
      = .ok store') :
    getItem store' ("biometric_data_" ++ vaultId) = some mnemonic
    ∧ ∃ rawId, credential = some rawId
        ∧ getItem store' ("biometric_cred_" ++ vaultId) = some rawId := by
  unfold registerBiometric at h
  cases supported with
  | false => exact absurd h (by simp)
  | true =>
    cases credential with
    | none => exact absurd h (by simp)
    | some rawId =>
      simp only [Bool.not_true, Bool.false_eq_true, if_false, Except.ok.injEq] at h
      subst h
      refine ⟨getItem_setItem_self _ _ _, rawId, rfl, ?_⟩
      rw [getItem_setItem_ne _ _ _ _ (Ne.symm (bio_keys_ne vaultId))]
      exact getItem_setItem_self _ _ _

/-- C1 (witness). -/
theorem C1_claim_witness :
    getItem [("biometric_cred_v1", "c"), ("biometric_data_v1", "m")]
        ("biometric_data_" ++ "v1") = some "m"
    ∧ ∃ rawId, (some "c" : Option String) = some rawId
        ∧ getItem [("biometric_cred_v1", "c"), ("biometric_data_v1", "m")]
            ("biometric_cred_" ++ "v1") = some rawId :=
  C1_claim true (some "c") "m" "v1" none [] _ (by decide)

set_option maxRecDepth 1000000

/-- C2 (counterexample): single-bit tampering does not always produce
`authFailed`: flipping bit 1 of character 74 of a well-formed blob only
touches a base64 padding character, so decryption still succeeds (returning
the original plaintext), and flipping bit 7 of character 0 makes `atob`
throw `InvalidCharacterError`, surfacing as `badBase64`, not as an
authentication failure. -/
theorem C2_counterexample :
    decryptData (flipAt (encryptData [] (List.replicate 32 0) (List.replicate 12 0)) 74 1)
        (List.replicate 32 0) = .ok []
    ∧ decryptData (flipAt (encryptData [] (List.replicate 32 0) (List.replicate 12 0)) 0 7)
        (List.replicate 32 0) = .error .badBase64 :=
  ⟨by decide, by decide⟩

/-- C2 (amended): decrypting a well-formed blob with any key other than the
one that produced it fails with `authFailed`; and tampering with any single
bit of the blob can never make decryption under the original key return a
plaintext other than the original one (it either errors, or returns the
original plaintext when only discarded base64 bits were touched). -/
theorem C2_claim (p key key2 iv : List Nat) (hk : key.length = 32) (hiv : iv.length = 12)
    (hbp : ∀ b ∈ p, b < 256) (hbk : ∀ b ∈ key, b < 256) (hbiv : ∀ b ∈ iv, b < 256)
    (hne : key ≠ key2) :
    decryptData (encryptData p key iv) key2 = .error .authFailed
    ∧ ∀ pos bit q, decryptData (flipAt (encryptData p key iv) pos bit) key = .ok q →
        q = p :=
  ⟨decryptData_wrong_key p key key2 iv hk hne hiv hbp hbk hbiv,
   fun pos bit q hok => decryptData_flip_ok p key iv hk hiv hbp hbk hbiv pos bit q hok⟩

/-- C2 (witness). -/
theorem C2_claim_witness :
    decryptData (encryptData [1, 2] (List.replicate 32 0) (List.replicate 12 0))
        (List.replicate 32 1) = .error .authFailed :=
  (C2_claim [1, 2] (List.replicate 32 0) (List.replicate 32 1) (List.replicate 12 0)
    (by decide) (by decide) (by decide) (by decide) (by decide) (by decide)).1

/-- C3: round trip — decrypting with the producing key returns exactly the
original plaintext. -/
theorem C3_claim (p key iv : List Nat) (hk : key.length = 32) (hiv : iv.length = 12)
    (hbp : ∀ b ∈ p, b < 256) (hbk : ∀ b ∈ key, b < 256) (hbiv : ∀ b ∈ iv, b < 256) :
    decryptData (encryptData p key iv) key = .ok p :=
  decryptData_encryptData p key iv hk hiv hbp hbk hbiv

/-- C3 (witness). -/
theorem C3_claim_witness :
    decryptData (encryptData [104, 105] (List.replicate 32 7) (List.replicate 12 3))
        (List.replicate 32 7) = .ok [104, 105] :=
  C3_claim [104, 105] (List.replicate 32 7) (List.replicate 12 3) (by decide) (by decide)
    (by decide) (by decide) (by decide)

/-- C4 (counterexample): on the invalid mnemonic `"x"` (one word, not 12),
`deriveKeyFromMnemonic` does fail with `invalidMnemonic`, but `deriveVaultId`
does not fail: it performs the full hash-and-encode derivation and returns a
16-character identifier. -/
theorem C4_counterexample :
    deriveKeyFromMnemonic (fun _ => true) (fun _ => List.replicate 64 1) "x"
      = .error .invalidMnemonic
    ∧ deriveVaultId (fun _ => List.replicate 32 0) "x" = "0000000000000000" :=
  ⟨by decide, by decide⟩

/-- C4 (amended): on an input whose normalisation fails validation,
`deriveKeyFromMnemonic` fails with `invalidMnemonic` and its result is
independent of the seed-derivation function (no derivation work reaches the
output); `deriveVaultId`, by contrast, always produces a 16-character
identifier whenever the hash has its SHA-256 length. -/
theorem C4_claim (chk : List String → Bool) (seed1 seed2 : String → List Nat) (m : String)
    (hinv : validateMnemonic chk (normalizeMnemonic m) = false) :
    deriveKeyFromMnemonic chk seed1 m = .error .invalidMnemonic
    ∧ deriveKeyFromMnemonic chk seed1 m = deriveKeyFromMnemonic chk seed2 m
    ∧ ∀ hash : List Nat → List Nat,
        (hash (strBytes (normalizeMnemonic m))).length = 32 →
        (deriveVaultId hash m).length = 16 := by
  refine ⟨?_, ?_, ?_⟩
  · unfold deriveKeyFromMnemonic
    rw [hinv]
    rfl
  · unfold deriveKeyFromMnemonic
    rw [hinv]
    rfl
  · intro hash hlen
    unfold deriveVaultId
    show (((hash (strBytes (normalizeMnemonic m))).flatMap byteToHex).take 16).length = 16
    rw [List.length_take, length_flatMap_byteToHex, hlen]
    exact Nat.min_eq_left (by omega)

/-- C4 (witness). -/
theorem C4_claim_witness :
    deriveKeyFromMnemonic (fun _ => false) (fun _ => []) "hello world"
      = .error .invalidMnemonic
    ∧ (deriveVaultId (fun _ => List.replicate 32 5) "hello world").length = 16 :=
  ⟨(C4_claim (fun _ => false) (fun _ => []) (fun _ => []) "hello world" (by decide)).1,
   (C4_claim (fun _ => false) (fun _ => []) (fun _ => []) "hello world" (by decide)).2.2
     (fun _ => List.replicate 32 5) (by decide)⟩

/-- C5 (code bug): a fully confirmed `handleDeleteVault` removes the profile
record, the encrypted vault blob and the API keys, but leaves both
`biometric_cred_<vaultId>` and `biometric_data_<vaultId>` behind — the
latter holding the plaintext mnemonic — contradicting the claim that the
biometric binding is removed with no partial-delete state. -/
theorem C5_claim :
    handleDeleteVault (some "v1") true (some "DELETE")
        [⟨"v1", "Alice", "t1", true⟩]
        [("neural_db_vault_v1", "blob"), ("neural_db_api_keys_v1", "keys"),
         ("biometric_cred_v1", "cred"), ("biometric_data_v1", "secret mnemonic")]
      = ([], [("biometric_cred_v1", "cred"), ("biometric_data_v1", "secret mnemonic")])
    ∧ getItem (handleDeleteVault (some "v1") true (some "DELETE")
        [⟨"v1", "Alice", "t1", true⟩]
        [("neural_db_vault_v1", "blob"), ("neural_db_api_keys_v1", "keys"),
         ("biometric_cred_v1", "cred"), ("biometric_data_v1", "secret mnemonic")]).2
        "biometric_data_v1" = some "secret mnemonic" :=
  ⟨by decide, by decide⟩

/-- C6: with a query vector present, the ranker's output is a permutation of
the tag-filtered notes each scored by `scoreNote`; it is sorted by
non-increasing score; the sort is stable (any correctly ordered pair keeps
its relative order); and every returned note's score is the cosine
similarity with the query vector, exactly `0` for a missing vector, and
exactly `0` for a zero-magnitude vector (never an error). -/
theorem C6_claim (sqrt : ℚ → ℚ) (notes : List Note) (selectedTags : List String)
    (searchQuery : String) (qv : List ℚ) :
    (filteredNotes sqrt notes selectedTags searchQuery (some qv)).Perm
        ((tagFilter notes selectedTags).map (scoreNote sqrt qv))
    ∧ (filteredNotes sqrt notes selectedTags searchQuery (some qv)).Pairwise
        (fun a b => b.score.getD 0 ≤ a.score.getD 0)
    ∧ (∀ a b : ScoredNote,
        [a, b].Sublist ((tagFilter notes selectedTags).map (scoreNote sqrt qv)) →
        b.score.getD 0 ≤ a.score.getD 0 →
        [a, b].Sublist (filteredNotes sqrt notes selectedTags searchQuery (some qv)))
    ∧ (∀ sn ∈ filteredNotes sqrt notes selectedTags searchQuery (some qv),
        (∀ v, sn.note.vector = some v →
          sn.score = some (calculateCosineSimilarity sqrt qv v))
        ∧ (sn.note.vector = none → sn.score = some 0)
        ∧ (∀ v, sn.note.vector = some v → dotP v v = 0 → sn.score = some 0)) := by
  have hfn : filteredNotes sqrt notes selectedTags searchQuery (some qv)
      = ((tagFilter notes selectedTags).map (scoreNote sqrt qv)).mergeSort
        (fun a b => decide (b.score.getD 0 ≤ a.score.getD 0)) := rfl
  refine ⟨?_, ?_, ?_, ?_⟩
  · rw [hfn]
    exact List.mergeSort_perm _ _
  · rw [hfn]
    have hs := List.sorted_mergeSort scoreComparator_trans scoreComparator_total
      ((tagFilter notes selectedTags).map (scoreNote sqrt qv))
    exact hs.imp (fun h => of_decide_eq_true h)
  · intro a b hsub hle
    rw [hfn]
    have hpair : List.Pairwise
        (fun x y => (fun u w => decide (w.score.getD 0 ≤ u.score.getD 0)) x y = true)
        [a, b] :=
      List.Pairwise.cons
        (fun x hx => by
          have hxb : x = b := by simpa using hx
          subst hxb
          exact decide_eq_true hle)
        (List.Pairwise.cons (fun x hx => absurd hx (List.not_mem_nil x)) List.Pairwise.nil)
    exact List.sublist_mergeSort scoreComparator_trans scoreComparator_total hpair hsub
  · intro sn hsn
    rw [hfn] at hsn
    have hmem : sn ∈ (tagFilter notes selectedTags).map (scoreNote sqrt qv) :=
      List.mem_mergeSort.mp hsn
    obtain ⟨n, hn, rfl⟩ := List.mem_map.mp hmem
    refine ⟨fun v hv => ?_, fun hv => ?_, fun v hv hz => ?_⟩
    · simp only [scoreNote] at hv ⊢
      rw [hv]
    · simp only [scoreNote] at hv ⊢
      rw [hv]
    · simp only [scoreNote] at hv ⊢
      rw [hv]
      show some (calculateCosineSimilarity sqrt qv v) = some 0
      unfold calculateCosineSimilarity
      rw [if_pos (Or.inr hz)]

/-- C6 (witness). -/
theorem C6_claim_witness :
    (filteredNotes id [] [] "" (some [])).Perm
      ((tagFilter [] []).map (scoreNote id [])) :=
  (C6_claim id [] [] "" []).1

/-- C7: on the first unlock of an identity with no profile record, exactly
one profile is appended, carrying that identity, the current timestamp, a
cleared biometric flag and a display name distinct from every existing one;
on any later unlock of a known identity, the sequences of vault ids, names
and biometric flags are all unchanged, profiles of other identities are kept
verbatim, and the matching profile's `lastActive` becomes the new
timestamp. -/
theorem C7_claim (profiles : List UserProfile) (vaultId now : String) :
    ((∀ p ∈ profiles, p.vaultId ≠ vaultId) →
      ∃ newp, upsertProfileOnUnlock profiles vaultId now = profiles ++ [newp]
        ∧ newp.vaultId = vaultId ∧ newp.lastActive = now ∧ newp.hasBiometric = false
        ∧ newp.name ∉ profiles.map (fun p => p.name))
    ∧ ((∃ p ∈ profiles, p.vaultId = vaultId) →
      (upsertProfileOnUnlock profiles vaultId now).map (fun p => p.vaultId)
          = profiles.map (fun p => p.vaultId)
      ∧ (upsertProfileOnUnlock profiles vaultId now).map (fun p => p.name)
          = profiles.map (fun p => p.name)
      ∧ (upsertProfileOnUnlock profiles vaultId now).map (fun p => p.hasBiometric)
          = profiles.map (fun p => p.hasBiometric)
      ∧ (∀ p ∈ profiles, p.vaultId ≠ vaultId →
          p ∈ upsertProfileOnUnlock profiles vaultId now)
      ∧ (∀ p ∈ upsertProfileOnUnlock profiles vaultId now, p.vaultId = vaultId →
          p.lastActive = now)) := by
  constructor
  · intro h
    have hf : profiles.find? (fun p => p.vaultId == vaultId) = none := by
      apply List.find?_eq_none.mpr
      intro p hp
      simp [h p hp]
    simp only [upsertProfileOnUnlock, hf]
    exact ⟨⟨vaultId, generateUniqueName (profiles.map (fun p => p.name)), now, false⟩,
      rfl, rfl, rfl, rfl, generateUniqueName_not_mem _⟩
  · intro h
    cases hf : profiles.find? (fun p => p.vaultId == vaultId) with
    | none =>
      exfalso
      obtain ⟨p₀, hp₀, hpeq⟩ := h
      have := List.find?_eq_none.mp hf p₀ hp₀
      simp [hpeq] at this
    | some q =>
      simp only [upsertProfileOnUnlock, hf]
      refine ⟨?_, ?_, ?_, ?_, ?_⟩
      · rw [List.map_map]
        apply List.map_congr_left
        intro p hp
        by_cases hc : p.vaultId = vaultId <;> simp [hc]
      · rw [List.map_map]
        apply List.map_congr_left
        intro p hp
        by_cases hc : p.vaultId = vaultId <;> simp [hc]
      · rw [List.map_map]
        apply List.map_congr_left
        intro p hp
        by_cases hc : p.vaultId = vaultId <;> simp [hc]
      · intro p hp hne
        apply List.mem_map.mpr
        refine ⟨p, hp, ?_⟩
        have hc : (p.vaultId == vaultId) = false := beq_eq_false_iff_ne.mpr hne
        simp [hc]
      · intro p hp hpe
        obtain ⟨p₀, hp₀, hup⟩ := List.mem_map.mp hp
        by_cases hc : p₀.vaultId == vaultId
        · rw [if_pos hc] at hup
          rw [← hup]
        · rw [if_neg hc] at hup
          subst hup
          exact absurd hpe (by simpa using hc)

/-- C7 (witness). -/
theorem C7_claim_witness :
    ∃ newp, upsertProfileOnUnlock [⟨"v0", "user-", "t0", false⟩] "v1" "t1"
        = [⟨"v0", "user-", "t0", false⟩] ++ [newp]
      ∧ newp.vaultId = "v1" ∧ newp.lastActive = "t1" ∧ newp.hasBiometric = false
      ∧ newp.name ∉ [(⟨"v0", "user-", "t0", false⟩ : UserProfile)].map (fun p => p.name) :=
  (C7_claim [⟨"v0", "user-", "t0", false⟩] "v1" "t1").1 (by decide)

/-- C8: discoverable authentication (empty candidate list) on a device with
no biometric bindings at all fails with a no-match-class error — never with
`unsupported`. -/
theorem C8_claim (assertion : Option String) (store : Store)
    (h : ∀ kv ∈ store, strHasPrefix kv.1 "biometric_cred_" = false) :
    ∃ e, (authenticateBiometric [] assertion store).1 = .error e
      ∧ isNoMatchFailure e = true ∧ e ≠ BioError.unsupported := by
  have hred : authenticateBiometric [] assertion store
      = (authenticateDiscoverable assertion store, true) := rfl
  rw [hred]
  unfold authenticateDiscoverable
  cases assertion with
  | none => exact ⟨.assertionFailed, rfl, rfl, by decide⟩
  | some rawId =>
    have hf : store.find? (fun kv => strHasPrefix kv.1 "biometric_cred_" && kv.2 == rawId
        && (getItem store ("biometric_data_" ++ stripCredKey kv.1)).isSome) = none := by
      apply List.find?_eq_none.mpr
      intro kv hkv
      simp [h kv hkv]
    refine ⟨.unknownCredential, ?_, rfl, by decide⟩
    simp only [hf]

/-- C8 (witness). -/
theorem C8_claim_witness :
    ∃ e, (authenticateBiometric [] (some "abc") [("neural_db_profiles", "[]")]).1 = .error e
      ∧ isNoMatchFailure e = true ∧ e ≠ BioError.unsupported :=
  C8_claim (some "abc") [("neural_db_profiles", "[]")] (by decide)

/-- C9: scoped authentication over a non-empty candidate list in which no
candidate has a stored credential id fails with `noEligibleUser` and the
authenticator is never invoked (second component `false`); as soon as some
candidate has a stored credential, the authenticator is invoked. -/
theorem C9_claim (vaultIds : List String) (assertion : Option String) (store : Store)
    (hne : vaultIds ≠ []) :
    ((∀ i ∈ vaultIds, getItem store ("biometric_cred_" ++ i) = none) →
      authenticateBiometric vaultIds assertion store = (.error .noEligibleUser, false))
    ∧ ((∃ i ∈ vaultIds, (getItem store ("biometric_cred_" ++ i)).isSome = true) →
      (authenticateBiometric vaultIds assertion store).2 = true) := by
  have hne' : vaultIds.isEmpty = false := by
    cases vaultIds with
    | nil => exact absurd rfl hne
    | cons a l => rfl
  constructor
  · intro hall
    have hfm : vaultIds.filterMap (fun i => getItem store ("biometric_cred_" ++ i)) = [] :=
      List.filterMap_eq_nil_iff.mpr hall
    unfold authenticateBiometric
    simp only [hne', Bool.false_eq_true, if_false, hfm, List.isEmpty_nil, if_true]
  · intro hex
    obtain ⟨i, hi, hsome⟩ := hex
    have hfm : vaultIds.filterMap (fun j => getItem store ("biometric_cred_" ++ j)) ≠ [] := by
      intro h0
      have := List.filterMap_eq_nil_iff.mp h0 i hi
      rw [this] at hsome
      exact Bool.noConfusion hsome
    have hfm' : (vaultIds.filterMap (fun j => getItem store ("biometric_cred_" ++ j))).isEmpty
        = false := by
      cases hc : vaultIds.filterMap (fun j => getItem store ("biometric_cred_" ++ j)) with
      | nil => exact absurd hc hfm
      | cons a l => rfl
    unfold authenticateBiometric
    simp only [hne', Bool.false_eq_true, if_false, hfm']
    cases assertion with
    | none => rfl
    | some rawId =>
      cases hf : vaultIds.find?
          (fun i => getItem store ("biometric_cred_" ++ i) == some rawId) with
      | none => simp only [hf]
      | some vid =>
        simp only [hf]
        cases hg : getItem store ("biometric_data_" ++ vid) with
        | none => simp only [hg]
        | some m => simp only [hg]

/-- C9 (witness). -/
theorem C9_claim_witness :
    authenticateBiometric ["v1"] none [] = (.error .noEligibleUser, false)
    ∧ (authenticateBiometric ["v1"] none [("biometric_cred_v1", "c")]).2 = true :=
  ⟨(C9_claim ["v1"] none [] (by decide)).1 (by decide),
   (C9_claim ["v1"] none [("biometric_cred_v1", "c")] (by decide)).2
     ⟨"v1", by decide, by decide⟩⟩

/-- C10 (counterexample): the code does not accept every array whose
elements have `id` and `text` fields — it requires both to be truthy.  A
note with the present-but-empty id `""` and a non-empty text is rejected
with `invalidStructure`, although it has both fields. -/
theorem C10_counterexample :
    handleImportNotes (some (.jarr [.jobj [("id", .jstr ""), ("text", .jstr "hi")]])) []
      = ([], some .invalidStructure)
    ∧ getField (.jobj [("id", .jstr ""), ("text", .jstr "hi")]) "id" = some (.jstr "")
    ∧ getField (.jobj [("id", .jstr ""), ("text", .jstr "hi")]) "text" = some (.jstr "hi") :=
  ⟨rfl, rfl, rfl⟩

/-- C10 (amended): whenever `handleImportNotes` reports an error the note
collection is unchanged; whenever it succeeds the payload was an array whose
every element has truthy `id` and `text`, and the result prepends exactly
those imported elements whose id key is not already present, keeping every
existing note. -/
theorem C10_claim (parsed : Option JValue) (prev : List JValue) :
    (∀ err, (handleImportNotes parsed prev).2 = some err →
      (handleImportNotes parsed prev).1 = prev)
    ∧ ((handleImportNotes parsed prev).2 = none →
        ∃ elems, parsed = some (.jarr elems)
          ∧ checkAll elems = some true
          ∧ handleImportNotes parsed prev
              = ((elems.filter (fun n => match importIdKey n with
                  | some k => !(prev.any (fun m => importIdKey m == some k))
                  | none => true)) ++ prev, none)
          ∧ ∀ v ∈ elems, fieldTruthy v "id" = true ∧ fieldTruthy v "text" = true) := by
  cases parsed with
  | none => exact ⟨fun err _ => rfl, fun h => Option.noConfusion h⟩
  | some payload =>
    cases payload with
    | jnull => exact ⟨fun err _ => rfl, fun h => Option.noConfusion h⟩
    | jbool b => exact ⟨fun err _ => rfl, fun h => Option.noConfusion h⟩
    | jnum q => exact ⟨fun err _ => rfl, fun h => Option.noConfusion h⟩
    | jstr s => exact ⟨fun err _ => rfl, fun h => Option.noConfusion h⟩
    | jobj fields => exact ⟨fun err _ => rfl, fun h => Option.noConfusion h⟩
    | jarr elems =>
      have hred : handleImportNotes (some (.jarr elems)) prev
          = match checkAll elems with
            | none => (prev, some .parseFailed)
            | some false => (prev, some .invalidStructure)
            | some true =>
              ((elems.filter (fun n =>
                  match importIdKey n with
                  | some k => !((prev.filterMap importIdKey).contains k)
                  | none => true)) ++ prev, none) := rfl
      cases hc : checkAll elems with
      | none =>
        rw [hred, hc]
        exact ⟨fun err _ => rfl, fun h => Option.noConfusion h⟩
      | some b =>
        cases b with
        | false =>
          rw [hred, hc]
          exact ⟨fun err _ => rfl, fun h => Option.noConfusion h⟩
        | true =>
          rw [hred, hc]
          refine ⟨fun err h => Option.noConfusion h,
            fun _ => ⟨elems, rfl, hc, ?_, checkAll_true_forall elems hc⟩⟩
          have hfe : elems.filter (fun n =>
                match importIdKey n with
                | some k => !((prev.filterMap importIdKey).contains k)
                | none => true)
              = elems.filter (fun n =>
                match importIdKey n with
                | some k => !(prev.any (fun m => importIdKey m == some k))
                | none => true) := by
            apply List.filter_congr
            intro n hn
            cases hk : importIdKey n with
            | none => rfl
            | some k =>
              show (!((prev.filterMap importIdKey).contains k))
                  = (!(prev.any (fun m => importIdKey m == some k)))
              rw [contains_filterMap_importIdKey]
          exact congrArg (fun l => (l ++ prev, (none : Option ImportError))) hfe

/-- C10 (witness). -/
theorem C10_claim_witness :
    ∃ elems,
      (some (JValue.jarr [JValue.jobj [("id", JValue.jstr "a"), ("text", JValue.jstr "b")]])
          : Option JValue)
        = some (.jarr elems)
      ∧ checkAll elems = some true
      ∧ handleImportNotes
          (some (.jarr [.jobj [("id", JValue.jstr "a"), ("text", JValue.jstr "b")]])) []
        = ((elems.filter
            (fun n => match importIdKey n with
              | some k => !(([] : List JValue).any (fun m => importIdKey m == some k))
              | none => true)) ++ [], none)
      ∧ ∀ v ∈ elems, fieldTruthy v "id" = true ∧ fieldTruthy v "text" = true :=
  (C10_claim (some (.jarr [.jobj [("id", JValue.jstr "a"), ("text", JValue.jstr "b")]])) []).2
    (by rfl)

end NeuralDB
